import Mathlib

/-!
# hev-socks5-server: the worker (`src/hev-socks5-worker.c`)

A shallow embedding of the worker: its session list (an intrusive doubly-linked
list threaded through the sessions), the accept loop, the event task that
drives shutdown, and the session manager that decays the sessions' hit points.

Sessions are addressed by natural numbers, `none` is the NULL pointer, and the
memory holding the session objects is a total map from addresses to records.
The worker's units run under a cooperative scheduler, so the code between two
suspension points is one atomic function of the state; what the other units do
while a unit is suspended is an arbitrary state transformer supplied by the
caller.  Calls into the operating system and into the task library are
recorded, in program order, as a list of events.
-/

namespace HevSocks5

/-- Modelled from the spec: the registry-visible part of a session.  The struct
`HevSocks5SessionBase` is declared in `hev-socks5-session.h`, which is not part of
the sources at hand; the worker uses exactly the fields `prev`, `next`, `hp` and
`task`.  The worker prints `hp` with `%d`, so it is a C `int`: the field holds an
integer and the arithmetic on it (`int_dec`) is that of a 32-bit signed
integer. -/
structure HevSocks5SessionBase where
  prev : Option Nat
  next : Option Nat
  hp : Int
  task : Nat
deriving DecidableEq, Repr

/-- The fields of `struct _HevSocks5Worker`. -/
structure HevSocks5Worker where
  fd : Int
  event_fd : Int
  quit : Int
  task_worker : Nat
  task_event : Nat
  task_session_manager : Nat
  session_list : Option Nat
deriving DecidableEq, Repr

/-- Memory holding the session objects. -/
abbrev Mem := Nat → HevSocks5SessionBase

/-- Store `v` at address `p`. -/
def Mem.write (m : Mem) (p : Nat) (v : HevSocks5SessionBase) : Mem :=
  fun q => if q = p then v else m q

/-- The worker object together with the memory of the sessions. -/
structure World where
  self : HevSocks5Worker
  mem : Mem

/-- The lines the worker prints on stderr. -/
inductive Msg where
  | allocate_worker_failed
  | create_worker_task_failed
  | create_event_task_failed
  | create_session_manager_task_failed
  | write_stop_event_failed
  | accept_failed
  | set_non_blocking_failed
  | create_eventfd_failed
deriving DecidableEq, Repr

/-- Calls that leave the worker, and the store to `quit`, in program order. -/
inductive Event where
  | log (m : Msg)
  | close (fd : Int)
  | eventfd_write (fd : Int) (val : Nat)
  | add_fd (fd : Int)
  | wakeup (task : Nat)
  | session_new (fd : Int)
  | session_run (session : Nat)
  | store_quit (val : Int)
  | task_unref (task : Nat)
  | free_worker
deriving DecidableEq, Repr

/-- Whether a unit has returned from its entry function or is still suspended
at the end of what was observed. -/
inductive Status where
  | returned
  | suspended
deriving DecidableEq, Repr

/-! ## Registry mutation -/

/-- The function `session_manager_insert_session`. -/
def session_manager_insert_session (w : World) (session : Nat) : World :=
  -- session_base->prev = NULL;
  let m1 := w.mem.write session { w.mem session with prev := none }
  -- session_base->next = self->session_list;
  let m2 := m1.write session { m1 session with next := w.self.session_list }
  -- if (self->session_list) self->session_list->prev = session_base;
  let m3 := match w.self.session_list with
    | some h => m2.write h { m2 h with prev := some session }
    | none => m2
  -- self->session_list = session_base;
  { self := { w.self with session_list := some session }, mem := m3 }

/-- The function `session_manager_remove_session`. -/
def session_manager_remove_session (w : World) (session : Nat) : World :=
  -- if (session_base->prev) session_base->prev->next = session_base->next;
  -- else self->session_list = session_base->next;
  let w1 : World := match (w.mem session).prev with
    | some p => { w with mem := w.mem.write p { w.mem p with next := (w.mem session).next } }
    | none => { w with self := { w.self with session_list := (w.mem session).next } }
  -- if (session_base->next) session_base->next->prev = session_base->prev;
  match (w1.mem session).next with
  | some n => { w1 with mem := w1.mem.write n { w1.mem n with prev := (w1.mem session).prev } }
  | none => w1

/-- The function `session_close_handler`: the callback a session invokes when it
closes; `data` is the worker. -/
def session_close_handler (w : World) (session : Nat) : World :=
  session_manager_remove_session w session

/-! ## Reading the registry -/

/-- The loop `for (session = p; session; session = session->next)` collecting
the sessions it visits; `none` when the fuel runs out before NULL is reached. -/
def traverse (m : Mem) : Nat → Option Nat → Option (List Nat)
  | _, none => some []
  | 0, some _ => none
  | fuel + 1, some s => (traverse m fuel (m s).next).map (fun l => s :: l)

/-- The cells of `l` are linked forwards and backwards, starting at pointer `p`,
with `pv` the pointer stored as `prev` of the first cell. -/
def Chain (m : Mem) : Option Nat → Option Nat → List Nat → Prop
  | _, p, [] => p = none
  | pv, p, s :: l => p = some s ∧ (m s).prev = pv ∧ Chain m (some s) (m s).next l

/-- The registry of `w` is a well-formed doubly-linked list whose head-to-tail
traversal is `l`. -/
def RegistryValid (w : World) (l : List Nat) : Prop :=
  Chain w.mem none w.self.session_list l ∧ l.Nodup

/-- Every registered session has an execution unit of its own. -/
def OwnUnits (m : Mem) (l : List Nat) : Prop :=
  ∀ a ∈ l, ∀ b ∈ l, (m a).task = (m b).task → a = b

/-- A registry operation. -/
inductive RegOp where
  | insert (session : Nat)
  | remove (session : Nat)
deriving DecidableEq, Repr

/-- Run one registry operation on the worker. -/
def RegOp.run (w : World) : RegOp → World
  | RegOp.insert s => session_manager_insert_session w s
  | RegOp.remove s => session_close_handler w s

/-- Run a sequence of registry operations, first operation first. -/
def runOps (w : World) (ops : List RegOp) : World :=
  ops.foldl RegOp.run w

/-- The sessions inserted and not yet removed, the most recently inserted
first, after one more operation. -/
def RegOp.live (l : List Nat) : RegOp → List Nat
  | RegOp.insert s => s :: l
  | RegOp.remove s => l.filter (fun x => decide (x ≠ s))

/-- The sessions inserted and not yet removed after a sequence of operations
that starts with the sessions `l` registered. -/
def liveAfter (l : List Nat) (ops : List RegOp) : List Nat :=
  ops.foldl RegOp.live l

/-- Every insert is of a session that is not registered at that moment and
every remove is of one that is. -/
def ValidOps : List Nat → List RegOp → Prop
  | _, [] => True
  | l, RegOp.insert s :: ops => s ∉ l ∧ ValidOps (s :: l) ops
  | l, RegOp.remove s :: ops => s ∈ l ∧ ValidOps (l.filter (fun x => decide (x ≠ s))) ops

/-! ## Creation and stop -/

/-- The function `hev_socks5_worker_new`.  `alloc` says whether `hev_malloc0`
succeeds and `t1`, `t2`, `t3` are the results of the three `hev_task_new`
calls (`none` is NULL).  The allocation is zero-filled. -/
def hev_socks5_worker_new (fd : Int) (alloc : Bool) (t1 t2 t3 : Option Nat) :
    Option HevSocks5Worker × List Event :=
  if !alloc then (none, [Event.log Msg.allocate_worker_failed])
  else
    match t1 with
    | none => (none, [Event.log Msg.create_worker_task_failed, Event.free_worker])
    | some tw =>
      match t2 with
      | none => (none, [Event.log Msg.create_event_task_failed, Event.task_unref tw,
                        Event.free_worker])
      | some te =>
        match t3 with
        | none => (none, [Event.log Msg.create_session_manager_task_failed,
                          Event.task_unref te, Event.task_unref tw, Event.free_worker])
        | some ts =>
          (some { fd := fd, event_fd := -1, quit := 0, task_worker := tw, task_event := te,
                  task_session_manager := ts, session_list := none }, [])

/-- The function `hev_socks5_worker_stop`; `write_ret` is what `eventfd_write`
returns if it is called. -/
def hev_socks5_worker_stop (w : World) (write_ret : Int) : World × List Event :=
  if w.self.event_fd = -1 then (w, [])
  else if write_ret = -1 then
    (w, [Event.eventfd_write w.self.event_fd 1, Event.log Msg.write_stop_event_failed])
  else (w, [Event.eventfd_write w.self.event_fd 1])

/-- Call `hev_socks5_worker_stop` once for every entry of `rets`. -/
def stop_many (w : World) : List Int → World × List Event
  | [] => (w, [])
  | r :: rs =>
    let a := hev_socks5_worker_stop w r
    let b := stop_many a.1 rs
    (b.1, a.2 ++ b.2)

/-! ## Accept loop -/

/-- The function `task_socket_accept`.  `yields` lists, for every `accept` that
fails with EAGAIN, what the other units do while this unit is suspended in
`hev_task_yield`; `new_fd` is what the first `accept` that does not fail with
EAGAIN returns.  The result is the returned integer and the state at return. -/
def task_socket_accept (w : World) : List (World → World) → Int → Int × World
  | [], new_fd => (new_fd, w)
  | resume :: more, new_fd =>
    let w1 := resume w
    if w1.self.quit ≠ 0 then (-2, w1) else task_socket_accept w1 more new_fd

/-- What the environment answers during one iteration of the accept loop. -/
structure Iteration where
  /-- the suspensions inside `task_socket_accept` -/
  yields : List (World → World)
  /-- the descriptor `accept` finally returns; `none` is -1 with errno other than EAGAIN -/
  accept_ret : Option Nat
  /-- the return value of `ioctl (client_fd, FIONBIO, ...)` -/
  ioctl_ret : Int
  /-- the return value of `hev_socks5_session_new`; `none` is NULL -/
  session : Option Nat

/-- The integer `accept` returns. -/
def accept_int : Option Nat → Int
  | none => -1
  | some fd => (fd : Int)

/-- One iteration of the `for (;;)` loop of `hev_socks5_worker_task_entry`: the
state after it, the events it issues and whether it leaves the loop (`break`). -/
def worker_iteration (w : World) (it : Iteration) : World × List Event × Bool :=
  let r := task_socket_accept w it.yields (accept_int it.accept_ret)
  let client_fd := r.1
  let w1 := r.2
  if client_fd = -1 then (w1, [Event.log Msg.accept_failed], false)
  else if client_fd = -2 then (w1, [], true)
  else
    let ev1 := if it.ioctl_ret = -1 then
        [Event.log Msg.set_non_blocking_failed, Event.close client_fd] else []
    match it.session with
    | none => (w1, ev1 ++ [Event.session_new client_fd, Event.close client_fd], false)
    | some s =>
      (session_manager_insert_session w1 s,
        ev1 ++ [Event.session_new client_fd, Event.session_run s], false)

/-- The `for (;;)` loop of `hev_socks5_worker_task_entry` over the observed
iterations. -/
def worker_loop (w : World) : List Iteration → World × List Event × Status
  | [] => (w, [], Status.suspended)
  | it :: more =>
    let r := worker_iteration w it
    if r.2.2 then (r.1, r.2.1, Status.returned)
    else
      let r2 := worker_loop r.1 more
      (r2.1, r.2.1 ++ r2.2.1, r2.2.2)

/-- The function `hev_socks5_worker_task_entry`. -/
def hev_socks5_worker_task_entry (w : World) (its : List Iteration) :
    World × List Event × Status :=
  let r := worker_loop w its
  (r.1, Event.add_fd w.self.fd :: r.2.1, r.2.2)

/-- The states in which `task_socket_accept` is resumed after a suspension. -/
def resumptions (w : World) : List (World → World) → List World
  | [] => []
  | resume :: more => resume w :: resumptions (resume w) more

/-! ## Event task (shutdown) -/

/-- The state in which a unit runs again after going through the suspensions
`yields` one after the other. -/
def resume_all (w : World) (yields : List (World → World)) : World :=
  yields.foldl (fun (x : World) (resume : World → World) => resume x) w

/-- The loop `for (session = p; session; session = session->next)` of
`hev_socks5_event_task_entry`: set `hp` to 0 and wake the session's task. -/
def wake_sessions : Nat → Mem → Option Nat → Option (Mem × List Event)
  | _, m, none => some (m, [])
  | 0, _, some _ => none
  | fuel + 1, m, some s =>
    let m1 := m.write s { m s with hp := 0 }
    (wake_sessions fuel m1 (m1 s).next).map
      (fun r => (r.1, Event.wakeup (m1 s).task :: r.2))

/-- The part of `hev_socks5_event_task_entry` after its read loop. -/
def event_task_shutdown (fuel : Nat) (w : World) : Option (World × List Event) :=
  -- self->quit = 1;
  let w1 : World := { w with self := { w.self with quit := 1 } }
  -- the two wakeups, the traversal, close (self->event_fd)
  (wake_sessions fuel w1.mem w1.self.session_list).map
    (fun r => ({ w1 with mem := r.1 },
      [Event.store_quit 1, Event.wakeup w1.self.task_worker,
        Event.wakeup w1.self.task_session_manager] ++ r.2 ++ [Event.close w1.self.event_fd]))

/-- What `eventfd_read` returns when it does not fail with EAGAIN. -/
inductive ReadRet where
  | ok
  | error
deriving DecidableEq, Repr

/-- The integer `eventfd` returns. -/
def eventfd_int : Option Nat → Int
  | none => -1
  | some fd => (fd : Int)

/-- The function `hev_socks5_event_task_entry`.  `eventfd_ret` is the descriptor
`eventfd` returns (`none` is -1), `yields` lists what the other units do during
each suspension after a read that fails with EAGAIN, and `last` is the result of
the first read that does not fail with EAGAIN (`none`: no such read yet, the unit
is still suspended).  `none` is returned when the traversal runs out of fuel. -/
def hev_socks5_event_task_entry (fuel : Nat) (w : World) (eventfd_ret : Option Nat)
    (yields : List (World → World)) (last : Option ReadRet) :
    Option (World × List Event × Status) :=
  -- self->event_fd = eventfd (0, EFD_NONBLOCK);
  let w0 : World := { w with self := { w.self with event_fd := eventfd_int eventfd_ret } }
  if w0.self.event_fd = -1 then
    some (w0, [Event.log Msg.create_eventfd_failed], Status.returned)
  else
    let w1 := resume_all w0 yields
    match last with
    | none => some (w1, [Event.add_fd w0.self.event_fd], Status.suspended)
    | some _ =>
      (event_task_shutdown fuel w1).map
        (fun r => (r.1, Event.add_fd w0.self.event_fd :: r.2, Status.returned))

/-! ## Session manager (idle reaper) -/

/-- The value a 32-bit signed integer holds after `x` was computed: `x` reduced
modulo 2^32 into the range from -2^31 to 2^31 - 1. -/
def int_wrap (x : Int) : Int :=
  (x + 2147483648) % 4294967296 - 2147483648

/-- The statement `session->hp --` on a 32-bit `int`. -/
def int_dec (hp : Int) : Int :=
  int_wrap (hp - 1)

/-- The value of `hp` after `n` decrements. -/
def decay : Nat → Int → Int
  | 0, hp => hp
  | n + 1, hp => decay n (int_dec hp)

/-- The inner loop of `hev_socks5_session_manager_task_entry`: decrement `hp`
and wake the task of every session whose `hp` is not positive any more. -/
def reap_sessions : Nat → Mem → Option Nat → Option (Mem × List Event)
  | _, m, none => some (m, [])
  | 0, _, some _ => none
  | fuel + 1, m, some s =>
    let m1 := m.write s { m s with hp := int_dec (m s).hp }
    if (m1 s).hp > 0 then reap_sessions fuel m1 (m1 s).next
    else (reap_sessions fuel m1 (m1 s).next).map
      (fun r => (r.1, Event.wakeup (m1 s).task :: r.2))

/-- The function `hev_socks5_session_manager_task_entry`.  `sleeps` lists what the
other units do during each `hev_task_sleep`.  The result holds the events of
every traversal, one list per tick; `none` when a traversal runs out of fuel. -/
def hev_socks5_session_manager_task_entry (fuel : Nat) :
    World → List (World → World) → Option (World × List (List Event) × Status)
  | w, [] => some (w, [], Status.suspended)
  | w, resume :: more =>
    let w1 := resume w
    if w1.self.quit ≠ 0 then some (w1, [], Status.returned)
    else
      match reap_sessions fuel w1.mem w1.self.session_list with
      | none => none
      | some r =>
        (hev_socks5_session_manager_task_entry fuel { w1 with mem := r.1 } more).map
          (fun x => (x.1, r.2 :: x.2.1, x.2.2))

/-- The suspension `f` leaves the part `g` of the worker object as it was. -/
def Keeps {α : Type} (g : HevSocks5Worker → α) (f : World → World) : Prop :=
  ∀ w, g (f w).self = g w.self

/-- Nothing happens to the registry, the hit points or `quit` during a
suspension. -/
def Quiet (f : World → World) : Prop :=
  ∀ w, (f w).mem = w.mem ∧ (f w).self.session_list = w.self.session_list ∧
    (f w).self.quit = w.self.quit

/-- How many operations ago `op` was last performed in `ops`; the length of
`ops` when it never was. -/
def recency (ops : List RegOp) (op : RegOp) : Nat :=
  ops.reverse.indexOf op

/-! ## Concrete states used to exercise the statements -/

/-- A memory in which every session is unlinked, has two hit points and runs on
the task numbered 100 plus its address. -/
def mem0 : Mem := fun a => { prev := none, next := none, hp := 2, task := 100 + a }

/-- A freshly created worker listening on descriptor 3. -/
def worker0 : HevSocks5Worker :=
  { fd := 3, event_fd := -1, quit := 0, task_worker := 1, task_event := 2,
    task_session_manager := 4, session_list := none }

/-- The worker with an empty registry. -/
def world0 : World := { self := worker0, mem := mem0 }

/-- The worker after sessions 11 and 12 were inserted. -/
def world2 : World := runOps world0 [RegOp.insert 11, RegOp.insert 12]

/-- The worker after sessions 11, 12 and 13 were inserted. -/
def world3 : World := runOps world0 [RegOp.insert 11, RegOp.insert 12, RegOp.insert 13]

/-- The worker with sessions 11, 12 and 13 registered, once the event task has
created its descriptor, number 9. -/
def world3_fd : World := { world3 with self := { world3.self with event_fd := 9 } }

/-- The worker with the one session 11 registered, whose `hp` is the least
value of a 32-bit `int`. -/
def world_min : World :=
  { self := { worker0 with session_list := some 11 },
    mem := fun a => { prev := none, next := none, hp := -2147483648, task := 100 + a } }

/-- A run of registry operations in which a session is removed and inserted
again. -/
def ops6 : List RegOp :=
  [RegOp.insert 11, RegOp.insert 12, RegOp.insert 13, RegOp.remove 12, RegOp.insert 12,
    RegOp.remove 13]

/-- An iteration in which `accept` returns descriptor 7 at once, `ioctl` fails
and the session constructor returns the session at address 13. -/
def iter_nonblock_fails : Iteration :=
  { yields := [], accept_ret := some 7, ioctl_ret := -1, session := some 13 }

/-- An iteration in which `accept` returns descriptor 7 at once, `ioctl` fails
and the session constructor fails too. -/
def iter_nonblock_and_new_fail : Iteration :=
  { yields := [], accept_ret := some 7, ioctl_ret := -1, session := none }

/-- An iteration in which `accept` returns descriptor 7 at once, `ioctl`
succeeds and the session constructor fails. -/
def iter_new_fails : Iteration :=
  { yields := [], accept_ret := some 7, ioctl_ret := 0, session := none }

/-- An iteration in which `accept` returns descriptor 7 at once and everything
succeeds; the new session is at address 13. -/
def iter_ok : Iteration :=
  { yields := [], accept_ret := some 7, ioctl_ret := 0, session := some 13 }

/-- An iteration in which `accept` fails at once with an error other than
EAGAIN. -/
def iter_hard_error : Iteration :=
  { yields := [], accept_ret := none, ioctl_ret := 0, session := none }

/-- An iteration in which `accept` would block and `quit` is set while the unit
is suspended. -/
def iter_quit : Iteration :=
  { yields := [fun w => { w with self := { w.self with quit := 1 } }],
    accept_ret := some 7, ioctl_ret := 0, session := some 13 }

/-- The worker with sessions 11 and 12 registered and `quit` set. -/
def world2_quit : World := { world2 with self := { world2.self with quit := 1 } }

/-! ## Memory and chains -/

theorem Mem.write_same (m : Mem) (p : Nat) (v : HevSocks5SessionBase) :
    (Mem.write m p v) p = v := by
  simp [Mem.write]

theorem Mem.write_other (m : Mem) (p q : Nat) (v : HevSocks5SessionBase) (h : q ≠ p) :
    (Mem.write m p v) q = m q := by
  simp [Mem.write, h]

theorem Chain.frame {m m' : Mem} : ∀ (l : List Nat) (pv p : Option Nat),
    (∀ x ∈ l, (m' x).prev = (m x).prev ∧ (m' x).next = (m x).next) →
    Chain m pv p l → Chain m' pv p l := by
  intro l
  induction l with
  | nil => intro pv p _ h; exact h
  | cons s l ih =>
    intro pv p hx h
    obtain ⟨hp, hprev, hrest⟩ := h
    have hs := hx s (List.mem_cons_self s l)
    refine ⟨hp, ?_, ?_⟩
    · rw [hs.1]; exact hprev
    · rw [hs.2]
      exact ih (some s) (m s).next (fun x hxl => hx x (List.mem_cons_of_mem s hxl)) hrest

theorem traverse_of_chain {m : Mem} : ∀ (l : List Nat) (pv p : Option Nat) (fuel : Nat),
    Chain m pv p l → l.length ≤ fuel → traverse m fuel p = some l := by
  intro l
  induction l with
  | nil =>
    intro pv p fuel h _
    have hp : p = none := h
    subst hp
    cases fuel <;> rfl
  | cons s l ih =>
    intro pv p fuel h hf
    obtain ⟨hp, _, hrest⟩ := h
    subst hp
    cases fuel with
    | zero => simp at hf
    | succ fuel =>
      have hlen : l.length ≤ fuel := by simpa using hf
      simp [traverse, ih (some s) (m s).next fuel hrest hlen]

theorem chain_next_mem {m : Mem} : ∀ (l : List Nat) (pv p : Option Nat),
    Chain m pv p l → ∀ s ∈ l, ∀ t, (m s).next = some t → t ∈ l ∧ (m t).prev = some s := by
  intro l
  induction l with
  | nil => intro pv p _ s hs; simp at hs
  | cons x l ih =>
    intro pv p h s hs t ht
    obtain ⟨_, _, hrest⟩ := h
    rcases List.mem_cons.mp hs with rfl | hs'
    · cases l with
      | nil =>
        have : (m s).next = none := hrest
        rw [this] at ht
        cases ht
      | cons y l' =>
        obtain ⟨hy, hyprev, _⟩ := hrest
        rw [ht] at hy
        cases hy
        exact ⟨by simp, hyprev⟩
    · obtain ⟨h1, h2⟩ := ih (some x) (m x).next hrest s hs' t ht
      exact ⟨List.mem_cons_of_mem _ h1, h2⟩

theorem chain_prev_cases {m : Mem} : ∀ (l : List Nat) (pv p : Option Nat),
    Chain m pv p l → ∀ s ∈ l,
      ((m s).prev = pv ∧ p = some s) ∨ (∃ a ∈ l, (m s).prev = some a ∧ (m a).next = some s) := by
  intro l
  induction l with
  | nil => intro pv p _ s hs; simp at hs
  | cons x l ih =>
    intro pv p h s hs
    obtain ⟨hp, hprev, hrest⟩ := h
    rcases List.mem_cons.mp hs with rfl | hs'
    · exact Or.inl ⟨hprev, hp⟩
    · right
      rcases ih (some x) (m x).next hrest s hs' with ⟨h1, h2⟩ | ⟨a, ha, h1, h2⟩
      · exact ⟨x, by simp, h1, h2⟩
      · exact ⟨a, List.mem_cons_of_mem _ ha, h1, h2⟩

theorem chain_head {m : Mem} {pv p : Option Nat} {l : List Nat} (h : Chain m pv p l) :
    p = l.head? := by
  cases l with
  | nil => exact h
  | cons x l => exact h.1

/-! ## What insert and remove store -/

theorem insert_self (w : World) (s : Nat) :
    (session_manager_insert_session w s).self = { w.self with session_list := some s } := rfl

theorem insert_hp (w : World) (s x : Nat) :
    ((session_manager_insert_session w s).mem x).hp = (w.mem x).hp := by
  unfold session_manager_insert_session
  cases hh : w.self.session_list <;> simp only [Mem.write] <;> split_ifs <;> simp_all

theorem insert_task (w : World) (s x : Nat) :
    ((session_manager_insert_session w s).mem x).task = (w.mem x).task := by
  unfold session_manager_insert_session
  cases hh : w.self.session_list <;> simp only [Mem.write] <;> split_ifs <;> simp_all

theorem insert_prev (w : World) (s x : Nat) :
    ((session_manager_insert_session w s).mem x).prev =
      if w.self.session_list = some x then some s
      else if x = s then none else (w.mem x).prev := by
  unfold session_manager_insert_session
  cases hh : w.self.session_list <;> simp only [Mem.write] <;> split_ifs <;> simp_all

theorem insert_next (w : World) (s x : Nat) :
    ((session_manager_insert_session w s).mem x).next =
      if x = s then w.self.session_list else (w.mem x).next := by
  unfold session_manager_insert_session
  cases hh : w.self.session_list <;> simp only [Mem.write] <;> split_ifs <;> simp_all

theorem remove_eq (w : World) (s : Nat) :
    session_manager_remove_session w s =
      match (w.mem s).prev, (w.mem s).next with
      | none, none => { w with self := { w.self with session_list := none } }
      | none, some n =>
        { self := { w.self with session_list := some n },
          mem := w.mem.write n { w.mem n with prev := none } }
      | some p, none => { w with mem := w.mem.write p { w.mem p with next := none } }
      | some p, some n =>
        let m1 := w.mem.write p { w.mem p with next := some n }
        { w with mem := m1.write n { m1 n with prev := some p } } := by
  unfold session_manager_remove_session
  cases hp : (w.mem s).prev with
  | none =>
    cases hn : (w.mem s).next with
    | none => simp [hn]
    | some n => simp [hn, hp]
  | some p =>
    cases hn : (w.mem s).next with
    | none =>
      by_cases hsp : s = p
      · subst hsp; simp [Mem.write]
      · simp [Mem.write, hsp, hn]
    | some n =>
      by_cases hsp : s = p
      · subst hsp; simp [Mem.write, hp]
      · simp [Mem.write, hsp, hn, hp]

theorem remove_hp (w : World) (s x : Nat) :
    ((session_manager_remove_session w s).mem x).hp = (w.mem x).hp := by
  rw [remove_eq]
  cases hp : (w.mem s).prev <;> cases hn : (w.mem s).next <;>
    simp only [Mem.write] <;> split_ifs <;> simp_all

theorem remove_task (w : World) (s x : Nat) :
    ((session_manager_remove_session w s).mem x).task = (w.mem x).task := by
  rw [remove_eq]
  cases hp : (w.mem s).prev <;> cases hn : (w.mem s).next <;>
    simp only [Mem.write] <;> split_ifs <;> simp_all

theorem remove_prev (w : World) (s x : Nat) :
    ((session_manager_remove_session w s).mem x).prev =
      if (w.mem s).next = some x then (w.mem s).prev else (w.mem x).prev := by
  rw [remove_eq]
  cases hp : (w.mem s).prev <;> cases hn : (w.mem s).next <;>
    simp only [Mem.write] <;> split_ifs <;> simp_all

theorem remove_next (w : World) (s x : Nat) :
    ((session_manager_remove_session w s).mem x).next =
      if (w.mem s).prev = some x then (w.mem s).next else (w.mem x).next := by
  rw [remove_eq]
  cases hp : (w.mem s).prev <;> cases hn : (w.mem s).next <;>
    simp only [Mem.write] <;> split_ifs <;> simp_all

theorem remove_self (w : World) (s : Nat) :
    (session_manager_remove_session w s).self =
      if (w.mem s).prev = none then { w.self with session_list := (w.mem s).next }
      else w.self := by
  rw [remove_eq]
  cases hp : (w.mem s).prev <;> cases hn : (w.mem s).next <;> simp

/-! ## Insert and remove keep the registry well formed -/

theorem insert_valid (w : World) (l : List Nat) (s : Nat)
    (h : RegistryValid w l) (hs : s ∉ l) :
    RegistryValid (session_manager_insert_session w s) (s :: l) := by
  obtain ⟨hc, hnd⟩ := h
  refine ⟨?_, List.nodup_cons.mpr ⟨hs, hnd⟩⟩
  have hhead : (session_manager_insert_session w s).self.session_list = some s := rfl
  refine ⟨hhead, ?_, ?_⟩
  · rw [insert_prev]
    have hne : w.self.session_list ≠ some s := by
      intro e
      have := chain_head hc
      rw [e] at this
      cases l with
      | nil => simp at this
      | cons y l' =>
        simp only [List.head?_cons, Option.some.injEq] at this
        exact hs (by simp [this])
    simp [hne]
  · rw [insert_next]
    simp only [if_true]
    cases l with
    | nil => exact hc
    | cons y l' =>
      obtain ⟨hp, _, hrest⟩ := hc
      have hys : y ≠ s := fun e => hs (by simp [e])
      have hyl : y ∉ l' := (List.nodup_cons.mp hnd).1
      refine ⟨hp, ?_, ?_⟩
      · rw [insert_prev]; simp [hp]
      · rw [insert_next]
        simp only [hys, if_false]
        apply Chain.frame l' (some y) (w.mem y).next _ hrest
        intro x hx
        have hxs : x ≠ s := fun e => hs (by simp [← e, hx])
        have hxy : x ≠ y := fun e => hyl (e ▸ hx)
        have hne : w.self.session_list ≠ some x := by
          rw [hp]; intro e; exact hxy (Option.some.inj e).symm
        rw [insert_prev, insert_next]
        simp [hxs, hne]

theorem filter_ne_of_not_mem (l : List Nat) (s : Nat) (h : s ∉ l) :
    l.filter (fun x => decide (x ≠ s)) = l := by
  apply List.filter_eq_self.mpr
  intro a ha
  simp only [ne_eq, decide_not, Bool.not_eq_eq_eq_not, Bool.not_true, decide_eq_false_iff_not]
  intro e
  exact h (e ▸ ha)

theorem remove_chain (w : World) (s : Nat) : ∀ (l : List Nat) (pv p : Option Nat),
    Chain w.mem pv p l → l.Nodup → s ∈ l → (∀ a, pv = some a → a ∉ l) →
    Chain (session_manager_remove_session w s).mem pv
      (if p = some s then (w.mem s).next else p) (l.filter (fun x => decide (x ≠ s))) := by
  intro l
  induction l with
  | nil => intro pv p _ _ hs; simp at hs
  | cons x l ih =>
    intro pv p hc hnd hs hpv
    obtain ⟨hp, hxprev, hrest⟩ := hc
    have hxl : x ∉ l := (List.nodup_cons.mp hnd).1
    have hndl : l.Nodup := (List.nodup_cons.mp hnd).2
    by_cases hxs : x = s
    · subst hxs
      have hfil : (x :: l).filter (fun y => decide (y ≠ x)) = l := by
        rw [List.filter_cons]
        simp only [ne_eq, not_true_eq_false, decide_False, Bool.false_eq_true, if_false]
        exact filter_ne_of_not_mem l x hxl
      rw [hfil, if_pos hp]
      cases l with
      | nil => exact hrest
      | cons b l' =>
        obtain ⟨hb, _, hrest'⟩ := hrest
        have hbl : b ∉ l' := (List.nodup_cons.mp hndl).1
        have hpvb : pv ≠ some b := fun e => hpv b e (by simp)
        refine ⟨hb, ?_, ?_⟩
        · rw [remove_prev, if_pos hb, hxprev]
        · rw [remove_next, hxprev, if_neg hpvb]
          apply Chain.frame l' (some b) (w.mem b).next _ hrest'
          intro y hy
          have hyb : y ≠ b := fun e => hbl (e ▸ hy)
          have h1 : (w.mem x).next ≠ some y := by
            rw [hb]; intro e; exact hyb (Option.some.inj e).symm
          have h2 : (w.mem x).prev ≠ some y := by
            rw [hxprev]; intro e; exact hpv y e (by simp [hy])
          rw [remove_prev, remove_next, if_neg h1, if_neg h2]
          exact ⟨rfl, rfl⟩
    · have hsl : s ∈ l := by
        rcases List.mem_cons.mp hs with e | h
        · exact absurd e.symm hxs
        · exact h
      have hps : p ≠ some s := by
        rw [hp]; intro e; exact hxs (Option.some.inj e)
      have hfil : (x :: l).filter (fun y => decide (y ≠ s)) =
          x :: l.filter (fun y => decide (y ≠ s)) := by
        rw [List.filter_cons]
        simp [hxs]
      rw [hfil, if_neg hps]
      have hnx : (w.mem s).next ≠ some x := by
        intro e
        exact hxl (chain_next_mem l (some x) (w.mem x).next hrest s hsl x e).1
      have hiff : (w.mem s).prev = some x ↔ (w.mem x).next = some s := by
        constructor
        · intro e
          rcases chain_prev_cases l (some x) (w.mem x).next hrest s hsl with
            ⟨_, h2⟩ | ⟨a, ha, h1, _⟩
          · exact h2
          · rw [e] at h1
            exact absurd (Option.some.inj h1 ▸ ha) hxl
        · intro e
          have hh := chain_head hrest
          rw [e] at hh
          cases l with
          | nil => simp at hh
          | cons y l' =>
            simp only [List.head?_cons, Option.some.injEq] at hh
            subst hh
            exact hrest.2.1
      refine ⟨hp, ?_, ?_⟩
      · rw [remove_prev, if_neg hnx]; exact hxprev
      · have ih' := ih (some x) (w.mem x).next hrest hndl hsl
          (fun a e => by cases e; exact hxl)
        rw [remove_next]
        by_cases hc : (w.mem x).next = some s
        · rw [if_pos (hiff.mpr hc)]
          rw [if_pos hc] at ih'
          exact ih'
        · rw [if_neg (fun e => hc (hiff.mp e))]
          rw [if_neg hc] at ih'
          exact ih'

theorem remove_valid (w : World) (l : List Nat) (s : Nat)
    (h : RegistryValid w l) (hs : s ∈ l) :
    RegistryValid (session_manager_remove_session w s)
        (l.filter (fun x => decide (x ≠ s))) ∧
      (session_manager_remove_session w s).self =
        { w.self with session_list :=
            if w.self.session_list = some s then (w.mem s).next else w.self.session_list } := by
  obtain ⟨hc, hnd⟩ := h
  have hiff : (w.mem s).prev = none ↔ w.self.session_list = some s := by
    constructor
    · intro e
      rcases chain_prev_cases l none w.self.session_list hc s hs with ⟨_, h2⟩ | ⟨a, _, h1, _⟩
      · exact h2
      · rw [e] at h1; cases h1
    · intro e
      have hh := chain_head hc
      rw [e] at hh
      cases l with
      | nil => simp at hh
      | cons y l' =>
        simp only [List.head?_cons, Option.some.injEq] at hh
        subst hh
        exact hc.2.1
  have hself : (session_manager_remove_session w s).self =
      { w.self with session_list :=
          if w.self.session_list = some s then (w.mem s).next else w.self.session_list } := by
    rw [remove_self]
    by_cases hh : w.self.session_list = some s
    · rw [if_pos (hiff.mpr hh), if_pos hh]
    · rw [if_neg (fun e => hh (hiff.mp e)), if_neg hh]
  refine ⟨⟨?_, hnd.filter _⟩, hself⟩
  have := remove_chain w s l none w.self.session_list hc hnd hs (fun a e => by cases e)
  rw [hself]
  exact this

theorem valid_facts (w : World) (l : List Nat) (h : RegistryValid w l) :
    (∀ x, w.self.session_list = some x → (w.mem x).prev = none) ∧
    (∀ e ∈ l, ∀ f, (w.mem e).next = some f → (w.mem f).prev = some e ∧ f ∈ l) ∧
    (∀ fuel, l.length ≤ fuel → traverse w.mem fuel w.self.session_list = some l) := by
  obtain ⟨hc, _⟩ := h
  refine ⟨?_, ?_, ?_⟩
  · intro x hx
    have hh := chain_head hc
    rw [hx] at hh
    cases l with
    | nil => simp at hh
    | cons y l' =>
      simp only [List.head?_cons, Option.some.injEq] at hh
      subst hh
      exact hc.2.1
  · intro e he f hf
    have := chain_next_mem l none w.self.session_list hc e he f hf
    exact ⟨this.2, this.1⟩
  · intro fuel hf
    exact traverse_of_chain l none w.self.session_list fuel hc hf

theorem runOps_valid : ∀ (ops : List RegOp) (w : World) (l : List Nat),
    RegistryValid w l → ValidOps l ops → RegistryValid (runOps w ops) (liveAfter l ops) := by
  intro ops
  induction ops with
  | nil => intro w l h _; exact h
  | cons op ops ih =>
    intro w l h hv
    cases op with
    | insert s =>
      obtain ⟨hs, hrest⟩ := hv
      exact ih (session_manager_insert_session w s) (s :: l) (insert_valid w l s h hs) hrest
    | remove s =>
      obtain ⟨hs, hrest⟩ := hv
      exact ih (session_manager_remove_session w s) _ (remove_valid w l s h hs).1 hrest

theorem validOps_take : ∀ (ops : List RegOp) (l : List Nat) (n : Nat),
    ValidOps l ops → ValidOps l (ops.take n) := by
  intro ops
  induction ops with
  | nil => intro l n _; simp [ValidOps]
  | cons op ops ih =>
    intro l n hv
    cases n with
    | zero => simp [ValidOps]
    | succ n =>
      cases op with
      | insert s => exact ⟨hv.1, ih _ n hv.2⟩
      | remove s => exact ⟨hv.1, ih _ n hv.2⟩

theorem liveAfter_snoc (l : List Nat) (ops : List RegOp) (op : RegOp) :
    liveAfter l (ops ++ [op]) = RegOp.live (liveAfter l ops) op := by
  simp [liveAfter, List.foldl_append]

theorem recency_snoc (ops : List RegOp) (op x : RegOp) :
    recency (ops ++ [op]) x = if op = x then 0 else recency ops x + 1 := by
  unfold recency
  rw [List.reverse_append, List.reverse_singleton, List.singleton_append, List.indexOf_cons]
  by_cases h : op = x
  · simp [h]
  · have hb : (op == x) = false := beq_false_of_ne h
    rw [hb, if_neg h]
    rfl

theorem validOps_snoc : ∀ (ops : List RegOp) (l : List Nat) (op : RegOp),
    ValidOps l (ops ++ [op]) → ValidOps l ops ∧ ValidOps (liveAfter l ops) [op] := by
  intro ops
  induction ops with
  | nil => intro l op h; exact ⟨trivial, h⟩
  | cons o ops ih =>
    intro l op h
    cases o with
    | insert s =>
      obtain ⟨h1, h2⟩ := h
      have := ih (s :: l) op h2
      exact ⟨⟨h1, this.1⟩, this.2⟩
    | remove s =>
      obtain ⟨h1, h2⟩ := h
      have := ih _ op h2
      exact ⟨⟨h1, this.1⟩, this.2⟩

theorem mem_liveAfter (ops : List RegOp) (s : Nat) :
    s ∈ liveAfter [] ops ↔ recency ops (RegOp.insert s) < recency ops (RegOp.remove s) := by
  induction ops using List.reverseRecOn with
  | nil => simp [liveAfter, recency]
  | append_singleton ops op ih =>
    rw [liveAfter_snoc, recency_snoc, recency_snoc]
    cases op with
    | insert t =>
      by_cases hts : t = s
      · subst hts; simp [RegOp.live]
      · have hst : s ≠ t := fun e => hts e.symm
        simp [RegOp.live, hts, hst, ih]
    | remove t =>
      by_cases hts : t = s
      · subst hts; simp [RegOp.live]
      · have hst : s ≠ t := fun e => hts e.symm
        simp [RegOp.live, hts, hst, ih]

theorem liveAfter_recent (ops : List RegOp) (hv : ValidOps [] ops) :
    (liveAfter [] ops).Pairwise
      (fun x y => recency ops (RegOp.insert x) < recency ops (RegOp.insert y)) := by
  induction ops using List.reverseRecOn with
  | nil => simp [liveAfter]
  | append_singleton ops op ih =>
    obtain ⟨hv1, hv2⟩ := validOps_snoc ops [] op hv
    have ih' := ih hv1
    rw [liveAfter_snoc]
    cases op with
    | insert t =>
      have ht : t ∉ liveAfter [] ops := hv2.1
      simp only [RegOp.live, List.pairwise_cons]
      constructor
      · intro y hy
        have hty : t ≠ y := fun e => ht (e ▸ hy)
        rw [recency_snoc, recency_snoc]
        simp [hty]
      · apply List.Pairwise.imp_of_mem _ ih'
        intro a b ha hb hab
        have hta : t ≠ a := fun e => ht (e ▸ ha)
        have htb : t ≠ b := fun e => ht (e ▸ hb)
        rw [recency_snoc, recency_snoc]
        simp [hta, htb, hab]
    | remove t =>
      simp only [RegOp.live]
      apply List.Pairwise.filter
      apply List.Pairwise.imp _ ih'
      intro a b hab
      rw [recency_snoc, recency_snoc]
      simp [hab]

theorem validOps_ops6 : ValidOps [] ops6 := by
  simp [ops6, ValidOps]

theorem valid_world2 : RegistryValid world2 [12, 11] :=
  ⟨⟨rfl, rfl, rfl, rfl, rfl⟩, by decide⟩

theorem valid_world3 : RegistryValid world3 [13, 12, 11] :=
  ⟨⟨rfl, rfl, rfl, rfl, rfl, rfl, rfl⟩, by decide⟩

/-! ## The registry claims -/

/-- C1 (registry integrity).  Start from a worker whose registry is empty and run
any sequence of `session_manager_insert_session` calls, each on a session that is
not registered, and close notifications (`session_manager_remove_session`), each
on a session that is registered.  After every step (the first `n` operations,
for every `n`): the head's `prev` is NULL; for every registered entry `e` with
`e.next = f` also `f.prev = e`; following `next` from the head reaches NULL
within as many steps as there are live sessions and visits exactly the sessions
whose latest insert is more recent than their latest removal, each once, the
more recently inserted first. -/
theorem registry_integrity (w : World) (ops : List RegOp) (n : Nat)
    (hempty : w.self.session_list = none) (hops : ValidOps [] ops) :
    (∀ x, (runOps w (ops.take n)).self.session_list = some x →
      ((runOps w (ops.take n)).mem x).prev = none) ∧
    (∀ e ∈ liveAfter [] (ops.take n), ∀ f, ((runOps w (ops.take n)).mem e).next = some f →
      ((runOps w (ops.take n)).mem f).prev = some e) ∧
    traverse (runOps w (ops.take n)).mem (liveAfter [] (ops.take n)).length
      (runOps w (ops.take n)).self.session_list = some (liveAfter [] (ops.take n)) ∧
    (liveAfter [] (ops.take n)).Nodup ∧
    (∀ s, s ∈ liveAfter [] (ops.take n) ↔
      recency (ops.take n) (RegOp.insert s) < recency (ops.take n) (RegOp.remove s)) ∧
    (liveAfter [] (ops.take n)).Pairwise (fun x y =>
      recency (ops.take n) (RegOp.insert x) < recency (ops.take n) (RegOp.insert y)) := by
  have h0 : RegistryValid w [] := ⟨hempty, List.nodup_nil⟩
  have hv := validOps_take ops [] n hops
  have hvalid := runOps_valid (ops.take n) w [] h0 hv
  obtain ⟨f1, f2, f3⟩ := valid_facts _ _ hvalid
  exact ⟨f1, fun e he f hf => (f2 e he f hf).1, f3 _ (le_refl _), hvalid.2,
    mem_liveAfter (ops.take n), liveAfter_recent (ops.take n) hv⟩

theorem registry_integrity_witness :
    world0.self.session_list = none ∧ ValidOps [] ops6 ∧
    traverse (runOps world0 ops6).mem 2 (runOps world0 ops6).self.session_list =
      some [12, 11] :=
  ⟨rfl, validOps_ops6, (registry_integrity world0 ops6 6 rfl validOps_ops6).2.2.1⟩

/-- C5 (insert pushes at the head).  For a well-formed registry with traversal
`l` and a session `s` not in `l`, after `session_manager_insert_session`: the
head is `s`, `s.prev` is NULL, `s.next` is the former head (the first element of
`l`, NULL when `l` is empty), the registry is well formed with traversal
`s :: l`, and no `hp`, no `task` and no other field of the worker changed. -/
theorem insert_pushes_at_head (w : World) (l : List Nat) (s : Nat)
    (hv : RegistryValid w l) (hs : s ∉ l) :
    (session_manager_insert_session w s).self.session_list = some s ∧
    ((session_manager_insert_session w s).mem s).prev = none ∧
    ((session_manager_insert_session w s).mem s).next = w.self.session_list ∧
    w.self.session_list = l.head? ∧
    (l = [] → ((session_manager_insert_session w s).mem s).next = none) ∧
    RegistryValid (session_manager_insert_session w s) (s :: l) ∧
    traverse (session_manager_insert_session w s).mem (l.length + 1)
      (session_manager_insert_session w s).self.session_list = some (s :: l) ∧
    (∀ x, ((session_manager_insert_session w s).mem x).hp = (w.mem x).hp ∧
      ((session_manager_insert_session w s).mem x).task = (w.mem x).task) ∧
    (session_manager_insert_session w s).self = { w.self with session_list := some s } := by
  have hvalid := insert_valid w l s hv hs
  have hhead : w.self.session_list = l.head? := chain_head hv.1
  have hnext : ((session_manager_insert_session w s).mem s).next = w.self.session_list := by
    rw [insert_next]; simp
  refine ⟨rfl, hvalid.1.2.1, hnext, hhead, ?_, hvalid, ?_, ?_, rfl⟩
  · intro hl
    rw [hnext, hhead, hl]
    rfl
  · exact (valid_facts _ _ hvalid).2.2 _ (le_refl _)
  · intro x
    exact ⟨insert_hp w s x, insert_task w s x⟩

theorem insert_pushes_at_head_witness :
    RegistryValid world2 [12, 11] ∧ 13 ∉ [12, 11] ∧
    (session_manager_insert_session world2 13).self.session_list = some 13 ∧
    traverse (session_manager_insert_session world2 13).mem 3
      (session_manager_insert_session world2 13).self.session_list = some [13, 12, 11] :=
  ⟨valid_world2, by decide,
    (insert_pushes_at_head world2 [12, 11] 13 valid_world2 (by decide)).1,
    (insert_pushes_at_head world2 [12, 11] 13 valid_world2 (by decide)).2.2.2.2.2.2.1⟩

/-- C6 (remove unlinks exactly the given session).  The close notification
`session_close_handler` does nothing but call `session_manager_remove_session`.
For a well-formed registry with traversal `l` and a session `s` in `l`, after
it the registry is well formed and its traversal is `l` with `s` deleted: every
other session is still there, once, in the same relative order, and `s` is not
reached any more.  The head pointer is unchanged unless `s` was the head, in
which case it becomes `s.next` (NULL if `s` was the only entry).  No `hp`, no
`task` and no other field of the worker changes. -/
theorem remove_unlinks (w : World) (l : List Nat) (s : Nat)
    (hv : RegistryValid w l) (hs : s ∈ l) :
    session_close_handler w s = session_manager_remove_session w s ∧
    RegistryValid (session_close_handler w s) (l.filter (fun x => decide (x ≠ s))) ∧
    traverse (session_close_handler w s).mem l.length
      (session_close_handler w s).self.session_list =
        some (l.filter (fun x => decide (x ≠ s))) ∧
    (∀ x ∈ l, x ≠ s → x ∈ l.filter (fun x => decide (x ≠ s))) ∧
    (l.filter (fun x => decide (x ≠ s))).Nodup ∧
    List.Sublist (l.filter (fun x => decide (x ≠ s))) l ∧
    s ∉ l.filter (fun x => decide (x ≠ s)) ∧
    (w.self.session_list ≠ some s →
      (session_close_handler w s).self.session_list = w.self.session_list) ∧
    (w.self.session_list = some s →
      (session_close_handler w s).self.session_list = (w.mem s).next) ∧
    (l = [s] → (session_close_handler w s).self.session_list = none) ∧
    (∀ x, ((session_close_handler w s).mem x).hp = (w.mem x).hp ∧
      ((session_close_handler w s).mem x).task = (w.mem x).task) ∧
    (session_close_handler w s).self =
      { w.self with session_list := (session_close_handler w s).self.session_list } := by
  obtain ⟨hvalid, hself⟩ := remove_valid w l s hv hs
  have hlen : (l.filter (fun x => decide (x ≠ s))).length ≤ l.length := List.length_filter_le _ _
  have hhead : (session_manager_remove_session w s).self.session_list =
      if w.self.session_list = some s then (w.mem s).next else w.self.session_list := by
    rw [hself]
  refine ⟨rfl, hvalid, (valid_facts _ _ hvalid).2.2 _ hlen, ?_, hvalid.2,
    List.filter_sublist l, ?_, ?_, ?_, ?_, ?_, ?_⟩
  · intro x hx hxs
    exact List.mem_filter.mpr ⟨hx, by simpa using hxs⟩
  · intro h
    have := (List.mem_filter.mp h).2
    simp at this
  · intro hne
    show (session_manager_remove_session w s).self.session_list = _
    rw [hhead, if_neg hne]
  · intro he
    show (session_manager_remove_session w s).self.session_list = _
    rw [hhead, if_pos he]
  · intro hl
    subst hl
    have hc := hv.1
    show (session_manager_remove_session w s).self.session_list = _
    rw [hhead, if_pos hc.1]
    exact hc.2.2
  · intro x
    exact ⟨remove_hp w s x, remove_task w s x⟩
  · simp only [session_close_handler, hself]

theorem remove_unlinks_witness :
    RegistryValid world3 [13, 12, 11] ∧ 12 ∈ [13, 12, 11] ∧
    traverse (session_close_handler world3 12).mem 3
      (session_close_handler world3 12).self.session_list = some [13, 11] :=
  ⟨valid_world3, by decide,
    (remove_unlinks world3 [13, 12, 11] 12 valid_world3 (by decide)).2.2.1⟩

/-! ## The traversals of the session manager and of the event task -/

theorem int_dec_eq (x : Int) (hlo : -2147483648 ≤ x - 1) (hhi : x ≤ 2147483647) :
    int_dec x = x - 1 := by
  unfold int_dec int_wrap
  omega

theorem decay_eq : ∀ (n : Nat) (x : Int), -2147483648 ≤ x - (n : Int) → x ≤ 2147483647 →
    decay n x = x - (n : Int) := by
  intro n
  induction n with
  | zero => intro x _ _; simp [decay]
  | succ n ih =>
    intro x hlo hhi
    have h1 : int_dec x = x - 1 := int_dec_eq x (by push_cast at hlo; omega) hhi
    simp only [decay, h1]
    rw [ih (x - 1) (by push_cast at hlo; omega) (by omega)]
    push_cast
    ring

theorem reap_chain : ∀ (l : List Nat) (m : Mem) (pv p : Option Nat) (fuel : Nat),
    Chain m pv p l → l.Nodup → l.length ≤ fuel →
    ∃ m', reap_sessions fuel m p =
        some (m', (l.filter (fun x => decide (int_dec (m x).hp ≤ 0))).map
          (fun x => Event.wakeup (m x).task)) ∧
      ∀ x, (m' x).prev = (m x).prev ∧ (m' x).next = (m x).next ∧ (m' x).task = (m x).task ∧
        (m' x).hp = if x ∈ l then int_dec (m x).hp else (m x).hp := by
  intro l
  induction l with
  | nil =>
    intro m pv p fuel hc _ _
    have hp : p = none := hc
    subst hp
    refine ⟨m, ?_, fun x => ⟨rfl, rfl, rfl, by simp⟩⟩
    cases fuel <;> rfl
  | cons s l ih =>
    intro m pv p fuel hc hnd hf
    obtain ⟨hp, _, hrest⟩ := hc
    subst hp
    have hsl : s ∉ l := (List.nodup_cons.mp hnd).1
    cases fuel with
    | zero => simp at hf
    | succ fuel =>
      have hlen : l.length ≤ fuel := by simpa using hf
      have hm1 : ∀ x, x ≠ s →
          (m.write s { m s with hp := int_dec (m s).hp }) x = m x :=
        fun x hx => Mem.write_other m s x _ hx
      have hm1s : (m.write s { m s with hp := int_dec (m s).hp }) s =
          { m s with hp := int_dec (m s).hp } := Mem.write_same m s _
      have hrest1 : Chain (m.write s { m s with hp := int_dec (m s).hp }) (some s)
          (m s).next l := by
        apply Chain.frame l (some s) (m s).next _ hrest
        intro x hx
        have hxs : x ≠ s := fun e => hsl (e ▸ hx)
        rw [hm1 x hxs]
        exact ⟨rfl, rfl⟩
      obtain ⟨m', hrun, hfields⟩ := ih _ (some s) (m s).next fuel hrest1
        (List.nodup_cons.mp hnd).2 hlen
      have hev : (l.filter (fun x => decide
            (int_dec ((m.write s { m s with hp := int_dec (m s).hp }) x).hp ≤ 0))).map
            (fun x => Event.wakeup ((m.write s { m s with hp := int_dec (m s).hp }) x).task) =
          (l.filter (fun x => decide (int_dec (m x).hp ≤ 0))).map
            (fun x => Event.wakeup (m x).task) := by
        have h1 : l.filter (fun x => decide
            (int_dec ((m.write s { m s with hp := int_dec (m s).hp }) x).hp ≤ 0)) =
            l.filter (fun x => decide (int_dec (m x).hp ≤ 0)) := by
          apply List.filter_congr
          intro x hx
          rw [hm1 x (fun e => hsl (e ▸ hx))]
        rw [h1]
        apply List.map_congr_left
        intro x hx
        have hxl : x ∈ l := (List.mem_filter.mp hx).1
        rw [hm1 x (fun e => hsl (e ▸ hxl))]
      rw [hev] at hrun
      refine ⟨m', ?_, ?_⟩
      · simp only [reap_sessions, hm1s]
        by_cases hpos : int_dec (m s).hp > 0
        · have hno : ¬ (int_dec (m s).hp ≤ 0) := by omega
          rw [if_pos hpos, hrun, List.filter_cons]
          simp [hno]
        · have hyes : int_dec (m s).hp ≤ 0 := by omega
          rw [if_neg hpos, hrun, List.filter_cons]
          simp [hyes]
      · intro x
        obtain ⟨h1, h2, h3, h4⟩ := hfields x
        by_cases hxs : x = s
        · subst hxs
          rw [h1, h2, h3, h4, hm1s]
          simp [hsl]
        · rw [h1, h2, h3, h4, hm1 x hxs]
          have : (x ∈ s :: l) ↔ x ∈ l := by simp [hxs]
          simp [this]

theorem wake_chain : ∀ (l : List Nat) (m : Mem) (pv p : Option Nat) (fuel : Nat),
    Chain m pv p l → l.Nodup → l.length ≤ fuel →
    ∃ m', wake_sessions fuel m p = some (m', l.map (fun x => Event.wakeup (m x).task)) ∧
      ∀ x, (m' x).prev = (m x).prev ∧ (m' x).next = (m x).next ∧ (m' x).task = (m x).task ∧
        (m' x).hp = if x ∈ l then 0 else (m x).hp := by
  intro l
  induction l with
  | nil =>
    intro m pv p fuel hc _ _
    have hp : p = none := hc
    subst hp
    refine ⟨m, ?_, fun x => ⟨rfl, rfl, rfl, by simp⟩⟩
    cases fuel <;> rfl
  | cons s l ih =>
    intro m pv p fuel hc hnd hf
    obtain ⟨hp, _, hrest⟩ := hc
    subst hp
    have hsl : s ∉ l := (List.nodup_cons.mp hnd).1
    cases fuel with
    | zero => simp at hf
    | succ fuel =>
      have hlen : l.length ≤ fuel := by simpa using hf
      have hm1 : ∀ x, x ≠ s → (m.write s { m s with hp := 0 }) x = m x :=
        fun x hx => Mem.write_other m s x _ hx
      have hm1s : (m.write s { m s with hp := 0 }) s = { m s with hp := 0 } :=
        Mem.write_same m s _
      have hrest1 : Chain (m.write s { m s with hp := 0 }) (some s) (m s).next l := by
        apply Chain.frame l (some s) (m s).next _ hrest
        intro x hx
        have hxs : x ≠ s := fun e => hsl (e ▸ hx)
        rw [hm1 x hxs]
        exact ⟨rfl, rfl⟩
      obtain ⟨m', hrun, hfields⟩ := ih _ (some s) (m s).next fuel hrest1
        (List.nodup_cons.mp hnd).2 hlen
      have hev : l.map (fun x => Event.wakeup ((m.write s { m s with hp := 0 }) x).task) =
          l.map (fun x => Event.wakeup (m x).task) := by
        apply List.map_congr_left
        intro x hx
        rw [hm1 x (fun e => hsl (e ▸ hx))]
      rw [hev] at hrun
      refine ⟨m', ?_, ?_⟩
      · simp only [wake_sessions, hm1s, hrun]
        simp
      · intro x
        obtain ⟨h1, h2, h3, h4⟩ := hfields x
        by_cases hxs : x = s
        · subst hxs
          rw [h1, h2, h3, h4, hm1s]
          simp
        · rw [h1, h2, h3, h4, hm1 x hxs]
          have : (x ∈ s :: l) ↔ x ∈ l := by simp [hxs]
          simp [this]

theorem valid_of_fields (w w' : World) (l : List Nat) (h : RegistryValid w l)
    (hhead : w'.self.session_list = w.self.session_list)
    (hf : ∀ x, (w'.mem x).prev = (w.mem x).prev ∧ (w'.mem x).next = (w.mem x).next) :
    RegistryValid w' l := by
  refine ⟨?_, h.2⟩
  rw [hhead]
  exact Chain.frame l none _ (fun x _ => hf x) h.1

theorem reaper_run (fuel : Nat) (l : List Nat) : ∀ (sleeps : List (World → World)) (w : World),
    RegistryValid w l → w.self.quit = 0 → (∀ f ∈ sleeps, Quiet f) → l.length ≤ fuel →
    ∃ w' ticks, hev_socks5_session_manager_task_entry fuel w sleeps =
        some (w', ticks, Status.suspended) ∧
      ticks.length = sleeps.length ∧ RegistryValid w' l ∧ w'.self.quit = 0 ∧
      (∀ x, (w'.mem x).prev = (w.mem x).prev ∧ (w'.mem x).next = (w.mem x).next ∧
        (w'.mem x).task = (w.mem x).task ∧
        (w'.mem x).hp = if x ∈ l then decay sleeps.length (w.mem x).hp else (w.mem x).hp) ∧
      (∀ i, i < sleeps.length → ticks[i]? =
        some ((l.filter (fun x => decide (decay (i + 1) (w.mem x).hp ≤ 0))).map
          (fun x => Event.wakeup (w.mem x).task))) := by
  intro sleeps
  induction sleeps with
  | nil =>
    intro w hv hq _ _
    refine ⟨w, [], rfl, rfl, hv, hq, fun x => ⟨rfl, rfl, rfl, by simp [decay]⟩, ?_⟩
    intro i hi
    simp at hi
  | cons f rest ih =>
    intro w hv hq hquiet hfuel
    obtain ⟨hmem, hhead, hquit⟩ := hquiet f (by simp) w
    have hq1 : (f w).self.quit = 0 := by rw [hquit]; exact hq
    have hc1 : Chain (f w).mem none (f w).self.session_list l := by
      rw [hmem, hhead]; exact hv.1
    obtain ⟨m', hreap, hfields⟩ := reap_chain l (f w).mem none _ fuel hc1 hv.2 hfuel
    have hv2 : RegistryValid { f w with mem := m' } l := by
      refine ⟨?_, hv.2⟩
      exact Chain.frame l none _ (fun x _ => ⟨(hfields x).1, (hfields x).2.1⟩) hc1
    obtain ⟨w', ticks, hrun, hlen, hv', hq', hf', hticks⟩ :=
      ih { f w with mem := m' } hv2 hq1 (fun g hg => hquiet g (List.mem_cons_of_mem _ hg)) hfuel
    refine ⟨w', ((l.filter (fun x => decide (int_dec ((f w).mem x).hp ≤ 0))).map
      (fun x => Event.wakeup ((f w).mem x).task)) :: ticks, ?_, ?_, hv', hq', ?_, ?_⟩
    · simp only [hev_socks5_session_manager_task_entry, hq1, ne_eq, not_true_eq_false,
        if_false, hreap, hrun, Option.map_some']
    · simp [hlen]
    · intro x
      obtain ⟨h1, h2, h3, h4⟩ := hf' x
      obtain ⟨g1, g2, g3, g4⟩ := hfields x
      simp only at h1 h2 h3 h4
      rw [hmem] at g1 g2 g3 g4
      refine ⟨h1.trans g1, h2.trans g2, h3.trans g3, ?_⟩
      rw [h4, g4]
      by_cases hx : x ∈ l
      · simp only [hx, if_true, List.length_cons, decay]
      · simp [hx]
    · intro i hi
      cases i with
      | zero =>
        simp only [List.getElem?_cons_zero, hmem, decay]
      | succ i =>
        have hi' : i < rest.length := by simpa using hi
        rw [List.getElem?_cons_succ, hticks i hi']
        simp only
        have h1 : l.filter (fun x => decide (decay (i + 1) (m' x).hp ≤ 0)) =
            l.filter (fun x => decide (decay (i + 1 + 1) (w.mem x).hp ≤ 0)) := by
          apply List.filter_congr
          intro x hx
          have := (hfields x).2.2.2
          rw [hmem] at this
          rw [this, if_pos hx]
          rfl
        rw [h1]
        congr 1
        apply List.map_congr_left
        intro x _
        have := (hfields x).2.2.1
        rw [hmem] at this
        rw [this]

theorem quiet_id : ∀ f ∈ [fun (w : World) => w, fun (w : World) => w], Quiet f := by
  intro f hf
  have : f = fun (w : World) => w := by
    rcases List.mem_cons.mp hf with h | h
    · exact h
    · simpa using h
  subst this
  intro w
  exact ⟨rfl, rfl, rfl⟩

theorem own_units_world3 : OwnUnits world3.mem [13, 12, 11] := by
  unfold OwnUnits
  decide

/-! ## The session manager -/

/-- C2 (liveness decay), amended.  Take a well-formed registry with traversal `l`
in which every session has an execution unit of its own, a session `s` in it
with `hp = k`, and `quit` clear.  Let the session manager go through `t` sleeps
during which nothing touches the registry, the hit points or `quit`, and let
`k` be a 32-bit `int` with `k - t` not below -2^31, so that no decrement of
`s.hp` overflows.  With fuel for `l`, the task performs `t` traversals and is
asleep again; then `s.hp = k - t`, the registry is still well formed with the
same traversal (so `s` is still registered), after the first `i` of the
traversals `s.hp = k - i`, and in traversal number `i` (from 1 to `t`) the
wakeups issued are exactly those of the sessions whose `hp` is not positive
after `i` decrements, in list order, so the task of `s` is woken in traversal
`i` if and only if `k - i ≤ 0`.  In particular, if every session starts with
`hp = 2` and `t = 2`, nothing is woken in the first traversal and every
session's task is woken in the second. -/
theorem liveness_decay (w : World) (l : List Nat) (s : Nat) (k : Int)
    (sleeps : List (World → World)) (fuel : Nat)
    (hv : RegistryValid w l) (hown : OwnUnits w.mem l) (hs : s ∈ l)
    (hk : (w.mem s).hp = k) (hq : w.self.quit = 0)
    (hquiet : ∀ f ∈ sleeps, Quiet f) (hfuel : l.length ≤ fuel)
    (hlo : -2147483648 ≤ k - (sleeps.length : Int)) (hhi : k ≤ 2147483647) :
    ∃ w' ticks, hev_socks5_session_manager_task_entry fuel w sleeps =
        some (w', ticks, Status.suspended) ∧
      ticks.length = sleeps.length ∧
      (w'.mem s).hp = k - sleeps.length ∧
      RegistryValid w' l ∧
      (∀ i, i ≤ sleeps.length → ∃ wi ticksi,
        hev_socks5_session_manager_task_entry fuel w (sleeps.take i) =
          some (wi, ticksi, Status.suspended) ∧
        (wi.mem s).hp = k - (i : Int) ∧ RegistryValid wi l) ∧
      (∀ i, 1 ≤ i → i ≤ sleeps.length → ∃ ev, ticks[i - 1]? = some ev ∧
        ev = (l.filter (fun x => decide (decay i (w.mem x).hp ≤ 0))).map
          (fun x => Event.wakeup (w.mem x).task) ∧
        (Event.wakeup (w.mem s).task ∈ ev ↔ k - (i : Int) ≤ 0)) ∧
      ((∀ x ∈ l, (w.mem x).hp = 2) → sleeps.length = 2 →
        ticks = [[], l.map (fun x => Event.wakeup (w.mem x).task)]) := by
  obtain ⟨w', ticks, hrun, hlen, hv', _, hf, hticks⟩ :=
    reaper_run fuel l sleeps w hv hq hquiet hfuel
  have hdec : ∀ i : Nat, i ≤ sleeps.length → decay i k = k - (i : Int) := by
    intro i hi
    have hi' : (i : Int) ≤ (sleeps.length : Int) := by exact_mod_cast hi
    exact decay_eq i k (by omega) hhi
  have htick : ∀ i, 1 ≤ i → i ≤ sleeps.length → ticks[i - 1]? =
      some ((l.filter (fun x => decide (decay i (w.mem x).hp ≤ 0))).map
        (fun x => Event.wakeup (w.mem x).task)) := by
    intro i h1 h2
    have := hticks (i - 1) (by omega)
    rw [this, Nat.sub_add_cancel h1]
  refine ⟨w', ticks, hrun, hlen, ?_, hv', ?_, ?_, ?_⟩
  · rw [(hf s).2.2.2, if_pos hs, hk, hdec _ (le_refl _)]
  · intro i hi
    obtain ⟨wi, ticksi, hruni, _, hvi, _, hfi, _⟩ :=
      reaper_run fuel l (sleeps.take i) w hv hq
        (fun f hm => hquiet f (List.mem_of_mem_take hm)) hfuel
    refine ⟨wi, ticksi, hruni, ?_, hvi⟩
    rw [(hfi s).2.2.2, if_pos hs, hk, List.length_take, Nat.min_eq_left hi, hdec i hi]
  · intro i h1 h2
    refine ⟨_, htick i h1 h2, rfl, ?_⟩
    simp only [List.mem_map, List.mem_filter, decide_eq_true_eq]
    constructor
    · rintro ⟨x, ⟨hx, hle⟩, he⟩
      have hxs : x = s := hown x hx s hs (Event.wakeup.inj he)
      subst hxs
      rw [hk, hdec i h2] at hle
      exact hle
    · intro hle
      exact ⟨s, ⟨hs, by rw [hk, hdec i h2]; exact hle⟩, rfl⟩
  · intro hall h2
    have e1 := htick 1 (le_refl _) (by omega)
    have e2 := htick 2 (by omega) (by omega)
    have d1 : decay 1 2 = 1 := decay_eq 1 2 (by decide) (by decide)
    have d2 : decay 2 2 = 0 := decay_eq 2 2 (by decide) (by decide)
    have f1 : l.filter (fun x => decide (decay 1 (w.mem x).hp ≤ 0)) = [] := by
      apply List.filter_eq_nil_iff.mpr
      intro x hx
      rw [hall x hx, d1]
      decide
    have f2 : l.filter (fun x => decide (decay 2 (w.mem x).hp ≤ 0)) = l := by
      apply List.filter_eq_self.mpr
      intro x hx
      rw [hall x hx, d2]
      decide
    rw [f1] at e1
    rw [f2] at e2
    rw [h2] at hlen
    match ticks, hlen, e1, e2 with
    | [a, b], _, e1, e2 =>
      simp only [Nat.sub_self, List.getElem?_cons_zero, Option.some.injEq, List.map_nil] at e1
      simp only [Nat.reduceSub, List.getElem?_cons_succ, List.getElem?_cons_zero,
        Option.some.injEq] at e2
      rw [e1, e2]

theorem liveness_decay_witness :
    RegistryValid world3 [13, 12, 11] ∧ OwnUnits world3.mem [13, 12, 11] ∧
    12 ∈ [13, 12, 11] ∧ (world3.mem 12).hp = 2 ∧ world3.self.quit = 0 ∧
    (∀ f ∈ [fun (w : World) => w, fun (w : World) => w], Quiet f) ∧
    (-2147483648 : Int) ≤ 2 - 2 ∧ (2 : Int) ≤ 2147483647 ∧
    ∃ w' ticks, hev_socks5_session_manager_task_entry 3 world3
        [fun w => w, fun w => w] = some (w', ticks, Status.suspended) ∧
      (w'.mem 12).hp = 0 ∧ RegistryValid w' [13, 12, 11] ∧
      ticks = [[], [Event.wakeup 113, Event.wakeup 112, Event.wakeup 111]] := by
  refine ⟨valid_world3, own_units_world3, by decide, rfl, rfl, quiet_id, by decide,
    by decide, ?_⟩
  obtain ⟨w', ticks, h1, _, h3, h4, _, _, h6⟩ :=
    liveness_decay world3 [13, 12, 11] 12 2 [fun w => w, fun w => w] 3
      valid_world3 own_units_world3 (by decide) rfl rfl quiet_id (le_refl _)
      (by decide) (by decide)
  exact ⟨w', ticks, h1, h3, h4, h6 (by decide) rfl⟩

/-- C2 as stated fails where the decrement overflows.  The registry holds the
one session 11 with `hp = -2147483648`, `quit` is clear and the session manager
goes through one sleep during which nothing happens.  After the traversal `hp`
is 2147483647, not `k - 1`, and the session's task is not woken although
`k - 1 ≤ 0`. -/
theorem liveness_decay_overflow :
    RegistryValid world_min [11] ∧ OwnUnits world_min.mem [11] ∧
    (world_min.mem 11).hp = -2147483648 ∧ world_min.self.quit = 0 ∧
    Quiet (fun (w : World) => w) ∧
    (hev_socks5_session_manager_task_entry 1 world_min [fun w => w]).map
      (fun r => ((r.1.mem 11).hp, r.2.1, r.2.2)) =
        some (2147483647, [[]], Status.suspended) ∧
    (2147483647 : Int) ≠ -2147483648 - 1 ∧
    (-2147483648 : Int) - 1 ≤ 0 ∧
    Event.wakeup (world_min.mem 11).task ∉ ([] : List Event) := by
  refine ⟨⟨⟨rfl, rfl, rfl⟩, by decide⟩, ?_, rfl, rfl, fun w => ⟨rfl, rfl, rfl⟩, ?_,
    by decide, by decide, by simp⟩
  · intro a ha b hb _
    simp only [List.mem_singleton] at ha hb
    rw [ha, hb]
  · decide

/-! ## The event task -/

theorem shutdown_run (fuel : Nat) (w : World) (l : List Nat)
    (hv : RegistryValid w l) (hfuel : l.length ≤ fuel) :
    ∃ w', event_task_shutdown fuel w =
        some (w', [Event.store_quit 1, Event.wakeup w.self.task_worker,
          Event.wakeup w.self.task_session_manager] ++
          l.map (fun x => Event.wakeup (w.mem x).task) ++ [Event.close w.self.event_fd]) ∧
      w'.self = { w.self with quit := 1 } ∧
      ∀ x, (w'.mem x).prev = (w.mem x).prev ∧ (w'.mem x).next = (w.mem x).next ∧
        (w'.mem x).task = (w.mem x).task ∧
        (w'.mem x).hp = if x ∈ l then 0 else (w.mem x).hp := by
  obtain ⟨m', hrun, hf⟩ := wake_chain l w.mem none w.self.session_list fuel hv.1 hv.2 hfuel
  refine ⟨{ self := { w.self with quit := 1 }, mem := m' }, ?_, rfl, hf⟩
  simp only [event_task_shutdown, hrun, Option.map_some']

theorem count_wakeup_own (m : Mem) (l : List Nat) (hnd : l.Nodup) (hown : OwnUnits m l)
    (s : Nat) (hs : s ∈ l) :
    (l.map (fun x => Event.wakeup (m x).task)).count (Event.wakeup (m s).task) = 1 := by
  have hinj : ∀ a ∈ l, ∀ b ∈ l, Event.wakeup (m a).task = Event.wakeup (m b).task → a = b :=
    fun a ha b hb h => hown a ha b hb (Event.wakeup.inj h)
  have hnd' : (l.map (fun x => Event.wakeup (m x).task)).Nodup :=
    List.Nodup.map_on hinj hnd
  exact List.count_eq_one_of_mem hnd' (List.mem_map.mpr ⟨s, hs, rfl⟩)

/-- C3 (shutdown completeness).  Let the event task create its descriptor and,
after any number of suspensions, complete a read on it; call `w1` the state at
that moment.  If the registry of `w1` is well formed with traversal `l` and
every session has an execution unit of its own, then with fuel for `l` the task
returns, and what it did after registering the descriptor is, in this order:
store 1 in `quit`, wake the worker's task, wake the session manager's task, wake
the task of every session of `l` in list order, close the event descriptor.  No
wakeup precedes the store to `quit`, every registered session ends with
`hp = 0` and its task is woken exactly once by the traversal, `quit` is 1
afterwards, and the registry is still well formed with the same traversal. -/
theorem shutdown_completeness (fuel : Nat) (w w1 : World) (efd : Nat)
    (yields : List (World → World)) (r : ReadRet) (l : List Nat)
    (hw1 : resume_all { w with self := { w.self with event_fd := (efd : Int) } } yields = w1)
    (hv : RegistryValid w1 l) (hown : OwnUnits w1.mem l) (hfuel : l.length ≤ fuel) :
    ∃ w' pre post,
      hev_socks5_event_task_entry fuel w (some efd) yields (some r) =
        some (w', pre ++ Event.store_quit 1 :: post, Status.returned) ∧
      pre = [Event.add_fd (efd : Int)] ∧
      post = [Event.wakeup w1.self.task_worker, Event.wakeup w1.self.task_session_manager]
        ++ l.map (fun x => Event.wakeup (w1.mem x).task) ++ [Event.close w1.self.event_fd] ∧
      (∀ e ∈ pre, ∀ t, e ≠ Event.wakeup t) ∧
      w'.self = { w1.self with quit := 1 } ∧
      (∀ x ∈ l, (w'.mem x).hp = 0 ∧
        (l.map (fun x => Event.wakeup (w1.mem x).task)).count
          (Event.wakeup (w1.mem x).task) = 1) ∧
      (∀ x, (w'.mem x).task = (w1.mem x).task ∧ (x ∉ l → (w'.mem x).hp = (w1.mem x).hp)) ∧
      RegistryValid w' l := by
  obtain ⟨w', hrun, hself, hf⟩ := shutdown_run fuel w1 l hv hfuel
  have hne : ¬ ((efd : Int) = -1) := by omega
  refine ⟨w', [Event.add_fd (efd : Int)], _, ?_, rfl, rfl, ?_, hself, ?_, ?_, ?_⟩
  · simp only [hev_socks5_event_task_entry, eventfd_int, hne, if_false, hw1, hrun,
      Option.map_some']
    rfl
  · intro e he t
    simp only [List.mem_singleton] at he
    subst he
    exact fun h => Event.noConfusion h
  · intro x hx
    refine ⟨?_, count_wakeup_own _ l hv.2 hown x hx⟩
    rw [(hf x).2.2.2, if_pos hx]
  · intro x
    refine ⟨(hf x).2.2.1, fun hx => ?_⟩
    rw [(hf x).2.2.2, if_neg hx]
  · refine valid_of_fields _ w' l hv ?_ (fun x => ⟨(hf x).1, (hf x).2.1⟩)
    rw [hself]

theorem shutdown_completeness_witness :
    RegistryValid world3_fd [13, 12, 11] ∧ OwnUnits world3_fd.mem [13, 12, 11] ∧
    ∃ w', hev_socks5_event_task_entry 3 world3 (some 9) [fun w => w] (some ReadRet.ok) =
        some (w', [Event.add_fd 9, Event.store_quit 1, Event.wakeup 1, Event.wakeup 4,
          Event.wakeup 113, Event.wakeup 112, Event.wakeup 111, Event.close 9],
          Status.returned) ∧
      w'.self.quit = 1 ∧ (w'.mem 12).hp = 0 ∧ RegistryValid w' [13, 12, 11] := by
  have hv : RegistryValid world3_fd [13, 12, 11] :=
    ⟨⟨rfl, rfl, rfl, rfl, rfl, rfl, rfl⟩, by decide⟩
  refine ⟨hv, own_units_world3, ?_⟩
  obtain ⟨w', pre, post, h1, h2, h3, _, h5, h6, _, h8⟩ :=
    shutdown_completeness 3 world3 world3_fd 9 [fun w => w] ReadRet.ok [13, 12, 11] rfl
      hv own_units_world3 (le_refl _)
  subst h2 h3
  exact ⟨w', h1, by rw [h5], (h6 12 (by decide)).1, h8⟩

/-! ## The accept loop -/

theorem accept_no_quit : ∀ (yields : List (World → World)) (w : World) (v : Int),
    (∀ x ∈ resumptions w yields, x.self.quit = 0) →
    task_socket_accept w yields v = (v, resume_all w yields) := by
  intro yields
  induction yields with
  | nil => intro w v _; rfl
  | cons f rest ih =>
    intro w v h
    have h0 : (f w).self.quit = 0 := h (f w) (by simp [resumptions])
    have hrest : ∀ x ∈ resumptions (f w) rest, x.self.quit = 0 :=
      fun x hx => h x (by simp [resumptions, hx])
    simp only [task_socket_accept, h0, ne_eq, not_true_eq_false, if_false]
    rw [ih (f w) v hrest]
    rfl

theorem accept_quit : ∀ (yields : List (World → World)) (w : World) (v : Int),
    (∃ x ∈ resumptions w yields, x.self.quit ≠ 0) →
    (task_socket_accept w yields v).1 = -2 := by
  intro yields
  induction yields with
  | nil => intro w v h; obtain ⟨x, hx, _⟩ := h; simp [resumptions] at hx
  | cons f rest ih =>
    intro w v h
    by_cases h0 : (f w).self.quit = 0
    · simp only [task_socket_accept, h0, ne_eq, not_true_eq_false, if_false]
      apply ih
      obtain ⟨x, hx, hq⟩ := h
      simp only [resumptions, List.mem_cons] at hx
      rcases hx with rfl | hx
      · exact absurd h0 hq
      · exact ⟨x, hx, hq⟩
    · simp [task_socket_accept, h0]

theorem accept_int_ne (r : Option Nat) : accept_int r ≠ -2 := by
  cases r with
  | none => simp [accept_int]
  | some fd => simp only [accept_int]; omega

theorem iteration_breaks_iff (w : World) (it : Iteration) :
    (worker_iteration w it).2.2 = true ↔ ∃ x ∈ resumptions w it.yields, x.self.quit ≠ 0 := by
  by_cases h : ∃ x ∈ resumptions w it.yields, x.self.quit ≠ 0
  · have h2 := accept_quit it.yields w (accept_int it.accept_ret) h
    simp only [h, iff_true]
    simp [worker_iteration, h2]
  · have h' : ∀ x ∈ resumptions w it.yields, x.self.quit = 0 := by
      intro x hx
      by_contra hq
      exact h ⟨x, hx, hq⟩
    have h2 := accept_no_quit it.yields w (accept_int it.accept_ret) h'
    simp only [h, iff_false]
    have hne := accept_int_ne it.accept_ret
    unfold worker_iteration
    simp only [h2]
    by_cases h1 : accept_int it.accept_ret = -1
    · simp [h1]
    · simp only [h1, hne, if_false]
      cases it.session <;> simp

theorem loop_returns_iff : ∀ (its : List Iteration) (w : World),
    (worker_loop w its).2.2 = Status.returned ↔
      ∃ before it after, its = before ++ it :: after ∧
        (worker_loop w before).2.2 = Status.suspended ∧
        (worker_iteration (worker_loop w before).1 it).2.2 = true := by
  intro its
  induction its with
  | nil =>
    intro w
    simp [worker_loop]
  | cons i more ih =>
    intro w
    by_cases hb : (worker_iteration w i).2.2 = true
    · have hl : (worker_loop w (i :: more)).2.2 = Status.returned := by
        simp [worker_loop, hb]
      simp only [hl, true_iff]
      exact ⟨[], i, more, rfl, rfl, hb⟩
    · have hl : ∀ xs, worker_loop w (i :: xs) =
          ((worker_loop (worker_iteration w i).1 xs).1,
            (worker_iteration w i).2.1 ++ (worker_loop (worker_iteration w i).1 xs).2.1,
            (worker_loop (worker_iteration w i).1 xs).2.2) := by
        intro xs
        simp [worker_loop, hb]
      rw [hl more]
      simp only
      rw [ih]
      constructor
      · rintro ⟨before, it, after, he, hs, hx⟩
        refine ⟨i :: before, it, after, by simp [he], ?_, ?_⟩
        · rw [hl before]; exact hs
        · rw [hl before]; exact hx
      · rintro ⟨before, it, after, he, hs, hx⟩
        cases before with
        | nil =>
          simp only [List.nil_append, List.cons.injEq] at he
          obtain ⟨rfl, _⟩ := he
          exact absurd hx hb
        | cons b before =>
          simp only [List.cons_append, List.cons.injEq] at he
          obtain ⟨rfl, rfl⟩ := he
          rw [hl before] at hs hx
          exact ⟨before, it, after, rfl, hs, hx⟩

theorem iteration_conn (w : World) (it : Iteration) (d : Nat)
    (hacc : it.accept_ret = some d) (hq : ∀ x ∈ resumptions w it.yields, x.self.quit = 0) :
    worker_iteration w it =
      match it.session with
      | none =>
        (resume_all w it.yields,
          (if it.ioctl_ret = -1 then
            [Event.log Msg.set_non_blocking_failed, Event.close (d : Int)] else []) ++
          [Event.session_new (d : Int), Event.close (d : Int)], false)
      | some s =>
        (session_manager_insert_session (resume_all w it.yields) s,
          (if it.ioctl_ret = -1 then
            [Event.log Msg.set_non_blocking_failed, Event.close (d : Int)] else []) ++
          [Event.session_new (d : Int), Event.session_run s], false) := by
  have h2 := accept_no_quit it.yields w (accept_int it.accept_ret) hq
  have h1 : ¬ ((d : Int) = -1) := by omega
  have h3 : ¬ ((d : Int) = -2) := by omega
  rw [hacc] at h2
  simp only [accept_int] at h2
  unfold worker_iteration
  simp only [hacc, accept_int, h2, h1, h3, if_false]

theorem loop_cons_continue (w : World) (it : Iteration) (more : List Iteration)
    (h : (worker_iteration w it).2.2 = false) :
    worker_loop w (it :: more) =
      ((worker_loop (worker_iteration w it).1 more).1,
        (worker_iteration w it).2.1 ++ (worker_loop (worker_iteration w it).1 more).2.1,
        (worker_loop (worker_iteration w it).1 more).2.2) := by
  simp [worker_loop, h]

/-- C7 (scenario D).  In an iteration of the accept loop in which `accept`
returns the descriptor `d` (no resumption saw `quit` set), `ioctl` succeeds and
`hev_socks5_session_new` returns NULL: the iteration issues the constructor
call and then `close (d)`, exactly one close of `d`, it starts no session, the
worker and the sessions are left as they were when `accept` returned (as before
the iteration when `accept` did not block), and the loop goes on with the next
iteration. -/
theorem session_construction_failure (w : World) (it : Iteration) (d : Nat)
    (more : List Iteration)
    (hacc : it.accept_ret = some d) (hq : ∀ x ∈ resumptions w it.yields, x.self.quit = 0)
    (hioctl : it.ioctl_ret ≠ -1) (hnew : it.session = none) :
    worker_iteration w it =
      (resume_all w it.yields, [Event.session_new (d : Int), Event.close (d : Int)], false) ∧
    (worker_iteration w it).2.1.count (Event.close (d : Int)) = 1 ∧
    (∀ s, Event.session_run s ∉ (worker_iteration w it).2.1) ∧
    (it.yields = [] → (worker_iteration w it).1 = w) ∧
    worker_loop w (it :: more) =
      ((worker_loop (resume_all w it.yields) more).1,
        [Event.session_new (d : Int), Event.close (d : Int)] ++
          (worker_loop (resume_all w it.yields) more).2.1,
        (worker_loop (resume_all w it.yields) more).2.2) := by
  have h := iteration_conn w it d hacc hq
  rw [hnew] at h
  simp only [hioctl, if_false, List.nil_append] at h
  refine ⟨h, ?_, ?_, ?_, ?_⟩
  · rw [h]
    simp [List.count_cons]
  · intro s
    rw [h]
    simp
  · intro hy
    rw [h, hy]
    rfl
  · have hc := loop_cons_continue w it more (by rw [h])
    rw [hc, h]

theorem session_construction_failure_witness :
    iter_new_fails.accept_ret = some 7 ∧ iter_new_fails.ioctl_ret ≠ -1 ∧
    iter_new_fails.session = none ∧
    worker_iteration world2 iter_new_fails =
      (world2, [Event.session_new 7, Event.close 7], false) ∧
    (worker_iteration world2 iter_new_fails).2.1.count (Event.close 7) = 1 :=
  ⟨rfl, by decide, rfl,
    (session_construction_failure world2 iter_new_fails 7 [] rfl
      (fun x hx => by simp [iter_new_fails, resumptions] at hx) (by decide) rfl).1,
    (session_construction_failure world2 iter_new_fails 7 [] rfl
      (fun x hx => by simp [iter_new_fails, resumptions] at hx) (by decide) rfl).2.1⟩

/-- C8 (accept loop termination, scenario C).  An iteration of the accept loop
leaves the loop exactly when `task_socket_accept` was resumed after an `accept`
that would block and found `quit` set; the loop as a whole returns exactly when
one of its iterations does so.  `quit` is read nowhere else: with `quit`
already set, an `accept` that returns a descriptor at once, followed by a
successful constructor call, still inserts the new session at the head of the
registry and runs it, and an `accept` that fails with another error only logs
and goes to the next iteration, whatever `quit` is. -/
theorem accept_loop_termination (w : World) (it : Iteration) (its more : List Iteration)
    (l : List Nat) (d s : Nat) :
    ((worker_iteration w it).2.2 = true ↔
      ∃ x ∈ resumptions w it.yields, x.self.quit ≠ 0) ∧
    ((worker_loop w its).2.2 = Status.returned ↔
      ∃ before i after, its = before ++ i :: after ∧
        (worker_loop w before).2.2 = Status.suspended ∧
        ∃ x ∈ resumptions (worker_loop w before).1 i.yields, x.self.quit ≠ 0) ∧
    (w.self.quit ≠ 0 → it.yields = [] → it.accept_ret = some d → it.session = some s →
      (worker_iteration w it).1 = session_manager_insert_session w s ∧
      (worker_iteration w it).1.self.session_list = some s ∧
      ((worker_iteration w it).1.mem s).next = w.self.session_list ∧
      (worker_iteration w it).1.self.quit = w.self.quit ∧
      (worker_iteration w it).2.1.getLast? = some (Event.session_run s) ∧
      (worker_iteration w it).2.2 = false ∧
      (RegistryValid w l → s ∉ l → RegistryValid (worker_iteration w it).1 (s :: l))) ∧
    (it.accept_ret = none → (∀ x ∈ resumptions w it.yields, x.self.quit = 0) →
      worker_iteration w it =
        (resume_all w it.yields, [Event.log Msg.accept_failed], false) ∧
      worker_loop w (it :: more) =
        ((worker_loop (resume_all w it.yields) more).1,
          Event.log Msg.accept_failed :: (worker_loop (resume_all w it.yields) more).2.1,
          (worker_loop (resume_all w it.yields) more).2.2)) := by
  refine ⟨iteration_breaks_iff w it, ?_, ?_, ?_⟩
  · rw [loop_returns_iff]
    constructor
    · rintro ⟨before, i, after, h1, h2, h3⟩
      exact ⟨before, i, after, h1, h2, (iteration_breaks_iff _ i).mp h3⟩
    · rintro ⟨before, i, after, h1, h2, h3⟩
      exact ⟨before, i, after, h1, h2, (iteration_breaks_iff _ i).mpr h3⟩
  · intro _ hy hacc hnew
    have h := iteration_conn w it d hacc (by rw [hy]; intro x hx; simp [resumptions] at hx)
    rw [hnew, hy] at h
    simp only at h
    have hw : resume_all w [] = w := rfl
    rw [hw] at h
    rw [h]
    refine ⟨rfl, rfl, ?_, rfl, ?_, rfl, ?_⟩
    · simp only
      rw [insert_next]
      simp
    · by_cases hi : it.ioctl_ret = -1 <;> simp [hi]
    · intro hv hs
      exact insert_valid w l s hv hs
  · intro hacc hq
    have h2 := accept_no_quit it.yields w (accept_int it.accept_ret) hq
    rw [hacc] at h2
    simp only [accept_int] at h2
    have h : worker_iteration w it =
        (resume_all w it.yields, [Event.log Msg.accept_failed], false) := by
      unfold worker_iteration
      simp only [hacc, accept_int, h2, if_true]
    refine ⟨h, ?_⟩
    rw [loop_cons_continue w it more (by rw [h]), h]
    rfl

theorem accept_loop_termination_witness :
    (worker_iteration world2_quit iter_ok).1.self.session_list = some 13 ∧
    RegistryValid (worker_iteration world2_quit iter_ok).1 [13, 12, 11] ∧
    (worker_iteration world2_quit iter_hard_error).2.2 = false ∧
    (worker_iteration world2 iter_quit).2.2 = true :=
  ⟨((accept_loop_termination world2_quit iter_ok [] [] [12, 11] 7 13).2.2.1
      (by decide) rfl rfl rfl).2.1,
    ((accept_loop_termination world2_quit iter_ok [] [] [12, 11] 7 13).2.2.1
      (by decide) rfl rfl rfl).2.2.2.2.2.2 ⟨⟨rfl, rfl, rfl, rfl, rfl⟩, by decide⟩ (by decide),
    by rw [((accept_loop_termination world2_quit iter_hard_error [] [] [] 0 0).2.2.2
      rfl (fun x hx => by simp [iter_hard_error, resumptions] at hx)).1],
    (accept_loop_termination world2 iter_quit [] [] [] 0 0).1.mpr
      ⟨world2_quit, by simp [iter_quit, resumptions, world2_quit], by decide⟩⟩

/-- C4 at a concrete input.  With sessions 11 and 12 registered, `accept`
returns descriptor 7 and `ioctl` fails: the iteration closes 7 and then still
calls the constructor on 7; when that returns session 13 the session is
inserted at the head and run, so the registry changes from `[12, 11]` to
`[13, 12, 11]`, and when it returns NULL descriptor 7 is closed a second
time. -/
theorem nonblock_failure_falls_through :
    worker_iteration world2 iter_nonblock_fails =
      (session_manager_insert_session world2 13,
        [Event.log Msg.set_non_blocking_failed, Event.close 7, Event.session_new 7,
          Event.session_run 13], false) ∧
    world2.self.session_list = some 12 ∧
    (worker_iteration world2 iter_nonblock_fails).1.self.session_list = some 13 ∧
    traverse (worker_iteration world2 iter_nonblock_fails).1.mem 3
      (worker_iteration world2 iter_nonblock_fails).1.self.session_list = some [13, 12, 11] ∧
    (worker_iteration world2 iter_nonblock_fails).1.self.session_list ≠
      world2.self.session_list ∧
    worker_iteration world2 iter_nonblock_and_new_fail =
      (world2, [Event.log Msg.set_non_blocking_failed, Event.close 7, Event.session_new 7,
        Event.close 7], false) :=
  ⟨rfl, rfl, rfl, rfl, by decide, rfl⟩

/-! ## Who writes `quit` and `event_fd` -/

theorem resume_all_keeps {α : Type} (g : HevSocks5Worker → α) :
    ∀ (yields : List (World → World)) (w : World), (∀ f ∈ yields, Keeps g f) →
      g (resume_all w yields).self = g w.self := by
  intro yields
  induction yields with
  | nil => intro w _; rfl
  | cons f rest ih =>
    intro w h
    have h1 : resume_all w (f :: rest) = resume_all (f w) rest := rfl
    rw [h1, ih (f w) (fun x hx => h x (List.mem_cons_of_mem _ hx))]
    exact h f (by simp) w

theorem accept_keeps {α : Type} (g : HevSocks5Worker → α) :
    ∀ (yields : List (World → World)) (w : World) (v : Int), (∀ f ∈ yields, Keeps g f) →
      g (task_socket_accept w yields v).2.self = g w.self := by
  intro yields
  induction yields with
  | nil => intro w v _; rfl
  | cons f rest ih =>
    intro w v h
    have hf : g (f w).self = g w.self := h f (by simp) w
    by_cases h0 : (f w).self.quit = 0
    · simp only [task_socket_accept, h0, ne_eq, not_true_eq_false, if_false]
      rw [ih (f w) v (fun x hx => h x (List.mem_cons_of_mem _ hx))]
      exact hf
    · simp only [task_socket_accept, h0, ne_eq, not_false_eq_true, if_true]
      exact hf

theorem iteration_keeps {α : Type} (g : HevSocks5Worker → α)
    (hg : ∀ (k : HevSocks5Worker) (p : Option Nat), g { k with session_list := p } = g k)
    (w : World) (it : Iteration) (h : ∀ f ∈ it.yields, Keeps g f) :
    g (worker_iteration w it).1.self = g w.self := by
  have ha := accept_keeps g it.yields w (accept_int it.accept_ret) h
  unfold worker_iteration
  simp only
  by_cases h1 : (task_socket_accept w it.yields (accept_int it.accept_ret)).1 = -1
  · rw [if_pos h1]; exact ha
  · rw [if_neg h1]
    by_cases h2 : (task_socket_accept w it.yields (accept_int it.accept_ret)).1 = -2
    · rw [if_pos h2]; exact ha
    · rw [if_neg h2]
      cases it.session with
      | none => exact ha
      | some s =>
        simp only [insert_self]
        rw [hg]
        exact ha

theorem reaper_keeps {α : Type} (g : HevSocks5Worker → α) (fuel : Nat) :
    ∀ (sleeps : List (World → World)) (w w' : World) (ticks : List (List Event)) (st : Status),
      (∀ f ∈ sleeps, Keeps g f) →
      hev_socks5_session_manager_task_entry fuel w sleeps = some (w', ticks, st) →
      g w'.self = g w.self := by
  intro sleeps
  induction sleeps with
  | nil =>
    intro w w' ticks st _ h
    simp only [hev_socks5_session_manager_task_entry, Option.some.injEq, Prod.mk.injEq] at h
    rw [← h.1]
  | cons f rest ih =>
    intro w w' ticks st hk h
    have hf : g (f w).self = g w.self := hk f (by simp) w
    by_cases h0 : (f w).self.quit = 0
    · simp only [hev_socks5_session_manager_task_entry, h0, ne_eq, not_true_eq_false,
        if_false] at h
      cases hr : reap_sessions fuel (f w).mem (f w).self.session_list with
      | none => rw [hr] at h; simp at h
      | some r =>
        rw [hr] at h
        simp only [Option.map_eq_some', Prod.mk.injEq] at h
        obtain ⟨x, hx, h1, _, _⟩ := h
        have := ih _ x.1 x.2.1 x.2.2 (fun y hy => hk y (List.mem_cons_of_mem _ hy)) hx
        rw [← h1, this]
        exact hf
    · simp only [hev_socks5_session_manager_task_entry, h0, ne_eq, not_false_eq_true,
        if_true, Option.some.injEq, Prod.mk.injEq] at h
      rw [← h.1]
      exact hf

theorem stop_many_spec : ∀ (rets : List Int) (w : World),
    (stop_many w rets).1 = w ∧
    ∀ e ∈ (stop_many w rets).2,
      (e = Event.eventfd_write w.self.event_fd 1 ∧ w.self.event_fd ≠ -1) ∨
      e = Event.log Msg.write_stop_event_failed := by
  intro rets
  induction rets with
  | nil => intro w; exact ⟨rfl, fun e he => by simp [stop_many] at he⟩
  | cons r rs ih =>
    intro w
    have h1 : (hev_socks5_worker_stop w r).1 = w := by
      unfold hev_socks5_worker_stop
      split_ifs <;> rfl
    have h2 : ∀ e ∈ (hev_socks5_worker_stop w r).2,
        (e = Event.eventfd_write w.self.event_fd 1 ∧ w.self.event_fd ≠ -1) ∨
        e = Event.log Msg.write_stop_event_failed := by
      intro e he
      unfold hev_socks5_worker_stop at he
      split_ifs at he with ha hb
      · simp at he
      · simp only [List.mem_cons, List.mem_singleton, List.not_mem_nil, or_false] at he
        rcases he with rfl | rfl
        · exact Or.inl ⟨rfl, ha⟩
        · exact Or.inr rfl
      · simp only [List.mem_singleton] at he
        exact Or.inl ⟨he, ha⟩
    have hs : stop_many w (r :: rs) =
        ((stop_many (hev_socks5_worker_stop w r).1 rs).1,
          (hev_socks5_worker_stop w r).2 ++ (stop_many (hev_socks5_worker_stop w r).1 rs).2) :=
      rfl
    rw [hs, h1]
    refine ⟨(ih w).1, ?_⟩
    intro e he
    rcases List.mem_append.mp he with h | h
    · exact h2 e h
    · exact (ih w).2 e h

theorem wake_events : ∀ (fuel : Nat) (m : Mem) (p : Option Nat) (r : Mem × List Event),
    wake_sessions fuel m p = some r → ∀ e ∈ r.2, ∃ t, e = Event.wakeup t := by
  intro fuel
  induction fuel with
  | zero =>
    intro m p r h e he
    cases p with
    | none =>
      simp only [wake_sessions, Option.some.injEq] at h
      subst h
      simp at he
    | some s => simp [wake_sessions] at h
  | succ fuel ih =>
    intro m p r h e he
    cases p with
    | none =>
      simp only [wake_sessions, Option.some.injEq] at h
      subst h
      simp at he
    | some s =>
      simp only [wake_sessions, Option.map_eq_some'] at h
      obtain ⟨r', hr', rfl⟩ := h
      simp only [List.mem_cons] at he
      rcases he with rfl | he
      · exact ⟨_, rfl⟩
      · exact ih _ _ r' hr' e he

theorem event_entry_cases (fuel : Nat) (w w' : World) (eventfd_ret : Option Nat)
    (yields : List (World → World)) (last : Option ReadRet) (ev : List Event) (st : Status)
    (h : hev_socks5_event_task_entry fuel w eventfd_ret yields last = some (w', ev, st)) :
    (eventfd_ret = none ∧ w' = { w with self := { w.self with event_fd := -1 } } ∧
      ev = [Event.log Msg.create_eventfd_failed] ∧ st = Status.returned) ∨
    (∃ efd, eventfd_ret = some efd ∧ last = none ∧
      w' = resume_all { w with self := { w.self with event_fd := (efd : Int) } } yields ∧
      ev = [Event.add_fd (efd : Int)] ∧ st = Status.suspended) ∨
    (∃ efd m wakes, eventfd_ret = some efd ∧ last ≠ none ∧ st = Status.returned ∧
      w' = { self := { (resume_all { w with self := { w.self with event_fd := (efd : Int) } }
          yields).self with quit := 1 }, mem := m } ∧
      (∀ e ∈ wakes, ∃ t, e = Event.wakeup t) ∧
      ev = Event.add_fd (efd : Int) :: ([Event.store_quit 1,
        Event.wakeup (resume_all { w with self := { w.self with event_fd := (efd : Int) } }
          yields).self.task_worker,
        Event.wakeup (resume_all { w with self := { w.self with event_fd := (efd : Int) } }
          yields).self.task_session_manager] ++ wakes ++
        [Event.close (resume_all { w with self := { w.self with event_fd := (efd : Int) } }
          yields).self.event_fd])) := by
  cases eventfd_ret with
  | none =>
    left
    simp only [hev_socks5_event_task_entry, eventfd_int, if_true, Option.some.injEq,
      Prod.mk.injEq] at h
    exact ⟨rfl, h.1.symm, h.2.1.symm, h.2.2.symm⟩
  | some efd =>
    right
    have hne : ¬ ((efd : Int) = -1) := by omega
    cases last with
    | none =>
      left
      simp only [hev_socks5_event_task_entry, eventfd_int, hne, if_false, Option.some.injEq,
        Prod.mk.injEq] at h
      exact ⟨efd, rfl, rfl, h.1.symm, h.2.1.symm, h.2.2.symm⟩
    | some r =>
      right
      simp only [hev_socks5_event_task_entry, eventfd_int, hne, if_false, event_task_shutdown,
        Option.map_map, Option.map_eq_some', Function.comp, Prod.mk.injEq] at h
      obtain ⟨x, hx, h1, h2, h3⟩ := h
      exact ⟨efd, x.1, x.2, rfl, by simp, h3.symm, h1.symm, wake_events _ _ _ x hx, h2.symm⟩

/-- C9 (idempotent stop).  Take any run of the event task.  Its trace holds at
most one store to `quit`, the store of 1 that opens the shutdown sequence, and
the task leaves `quit` either untouched or equal to 1, so a set `quit` stays
set.  In the state it leaves, any number of calls of `hev_socks5_worker_stop`
return, change neither the worker object (`quit` and the head of the registry
included) nor any session (`hp` included), and issue nothing but
`eventfd_write` and, when that fails, a line on stderr: no wakeup and no store
to `quit`.  No other operation of the worker writes `quit`: not insert, not the
close notification, not stop, not an iteration of the accept loop, not the
session manager. -/
theorem idempotent_stop (fuel : Nat) (w w' : World) (eventfd_ret : Option Nat)
    (yields sleeps : List (World → World)) (last : Option ReadRet) (ev : List Event)
    (st : Status) (rets : List Int) (it : Iteration) (s : Nat) (r : Int) :
    (hev_socks5_event_task_entry fuel w eventfd_ret yields last = some (w', ev, st) →
      (stop_many w' rets).1 = w' ∧
      (∀ e ∈ (stop_many w' rets).2, e = Event.eventfd_write w'.self.event_fd 1 ∨
        e = Event.log Msg.write_stop_event_failed) ∧
      (∀ t, Event.wakeup t ∉ (stop_many w' rets).2) ∧
      (∀ v, Event.store_quit v ∉ (stop_many w' rets).2) ∧
      ev.count (Event.store_quit 1) ≤ 1 ∧
      (∀ v, Event.store_quit v ∈ ev → v = 1) ∧
      ((∀ f ∈ yields, Keeps (fun k => k.quit) f) →
        (w'.self.quit = w.self.quit ∨ w'.self.quit = 1) ∧
        (w.self.quit ≠ 0 → w'.self.quit ≠ 0))) ∧
    (session_manager_insert_session w s).self.quit = w.self.quit ∧
    (session_close_handler w s).self.quit = w.self.quit ∧
    (hev_socks5_worker_stop w r).1 = w ∧
    ((∀ f ∈ it.yields, Keeps (fun k => k.quit) f) →
      (worker_iteration w it).1.self.quit = w.self.quit) ∧
    (∀ w2 ticks st2, (∀ f ∈ sleeps, Keeps (fun k => k.quit) f) →
      hev_socks5_session_manager_task_entry fuel w sleeps = some (w2, ticks, st2) →
      w2.self.quit = w.self.quit) := by
  refine ⟨?_, rfl, ?_, ?_, ?_, ?_⟩
  · intro h
    obtain ⟨hs1, hs2⟩ := stop_many_spec rets w'
    refine ⟨hs1, ?_, ?_, ?_, ?_, ?_, ?_⟩
    · intro e he
      rcases hs2 e he with ⟨h1, _⟩ | h1
      · exact Or.inl h1
      · exact Or.inr h1
    · intro t ht
      rcases hs2 _ ht with ⟨h1, _⟩ | h1 <;> exact Event.noConfusion h1
    · intro v hv
      rcases hs2 _ hv with ⟨h1, _⟩ | h1 <;> exact Event.noConfusion h1
    · rcases event_entry_cases fuel w w' eventfd_ret yields last ev st h with
        ⟨_, _, h3, _⟩ | ⟨efd, _, _, _, h3, _⟩ | ⟨efd, m, wakes, _, _, _, _, hw, h3⟩
      · rw [h3]; decide
      · rw [h3]; simp
      · rw [h3]
        have hz : wakes.count (Event.store_quit 1) = 0 := by
          apply List.count_eq_zero.mpr
          intro hm
          obtain ⟨t, ht⟩ := hw _ hm
          exact Event.noConfusion ht
        simp [List.count_cons, hz]
    · intro v hv
      rcases event_entry_cases fuel w w' eventfd_ret yields last ev st h with
        ⟨_, _, h3, _⟩ | ⟨efd, _, _, _, h3, _⟩ | ⟨efd, m, wakes, _, _, _, _, hw, h3⟩
      · rw [h3] at hv; simp at hv
      · rw [h3] at hv; simp at hv
      · rw [h3] at hv
        simp only [List.cons_append, List.nil_append, List.mem_cons, List.mem_append,
          List.mem_singleton] at hv
        rcases hv with h1 | h1 | h1 | h1 | h1 | h1
        · exact Event.noConfusion h1
        · exact Event.store_quit.inj h1
        · exact Event.noConfusion h1
        · exact Event.noConfusion h1
        · obtain ⟨t, ht⟩ := hw _ h1
          exact Event.noConfusion ht
        · rcases h1 with h1 | h1
          · exact Event.noConfusion h1
          · simp at h1
    · intro hk
      rcases event_entry_cases fuel w w' eventfd_ret yields last ev st h with
        ⟨_, h2, _, _⟩ | ⟨efd, _, _, h2, _, _⟩ | ⟨efd, m, wakes, _, _, _, h2, _, _⟩
      · rw [h2]
        exact ⟨Or.inl rfl, fun hq => hq⟩
      · have := resume_all_keeps (fun k => k.quit) yields
          { w with self := { w.self with event_fd := (efd : Int) } } hk
        simp only at this
        rw [h2, this]
        exact ⟨Or.inl rfl, fun hq => hq⟩
      · rw [h2]
        exact ⟨Or.inr rfl, fun _ => by simp⟩
  · show (session_manager_remove_session w s).self.quit = w.self.quit
    rw [remove_self]
    split_ifs <;> rfl
  · exact (stop_many_spec [r] w).1
  · intro hk
    exact iteration_keeps (fun k => k.quit) (fun _ _ => rfl) w it hk
  · intro w2 ticks st2 hk h
    exact reaper_keeps (fun k => k.quit) fuel sleeps w w2 ticks st2 hk h

theorem idempotent_stop_witness :
    ∃ w' ev, hev_socks5_event_task_entry 3 world3 (some 9) [] (some ReadRet.ok) =
        some (w', ev, Status.returned) ∧
      (stop_many w' [0, -1, 0]).1 = w' ∧
      (stop_many w' [0, -1, 0]).2 = [Event.eventfd_write 9 1, Event.eventfd_write 9 1,
        Event.log Msg.write_stop_event_failed, Event.eventfd_write 9 1] ∧
      ev.count (Event.store_quit 1) ≤ 1 :=
  ⟨_, _, rfl,
    ((idempotent_stop 3 world3 _ (some 9) [] [] (some ReadRet.ok) _ Status.returned
      [0, -1, 0] iter_ok 0 0).1 rfl).1, rfl,
    ((idempotent_stop 3 world3 _ (some 9) [] [] (some ReadRet.ok) _ Status.returned
      [0, -1, 0] iter_ok 0 0).1 rfl).2.2.2.2.1⟩

/-- C10 (the guard of stop).  `hev_socks5_worker_stop` calls `eventfd_write`
exactly when `event_fd` is not -1, then with that descriptor and the value 1,
and does nothing at all when it is -1.  `hev_socks5_worker_new` returns a
worker exactly when the allocation and the three task creations succeed, that
worker has `event_fd = -1` (with `quit` clear and an empty registry), and stop
on it is a no-op; neither insert, the close notification, stop, an
iteration of the accept loop nor the session manager writes the field.  The
event task stores in it what `eventfd` returned: -1 when the creation fails
(the task then returns at once), and otherwise a descriptor that is still in
the field when the task is suspended and also after it has run the shutdown
sequence, whose last action is to close that descriptor; a stop issued then
takes the write branch, with the closed descriptor's number. -/
theorem stop_guard_event_fd (fuel : Nat) (w : World) (r : Int) (s : Nat) (it : Iteration)
    (yields sleeps : List (World → World)) (last : Option ReadRet)
    (fd : Int) (alloc : Bool) (t1 t2 t3 : Option Nat) :
    ((∃ d v, Event.eventfd_write d v ∈ (hev_socks5_worker_stop w r).2) ↔
      w.self.event_fd ≠ -1) ∧
    (∀ d v, Event.eventfd_write d v ∈ (hev_socks5_worker_stop w r).2 →
      d = w.self.event_fd ∧ v = 1) ∧
    (w.self.event_fd = -1 → hev_socks5_worker_stop w r = (w, [])) ∧
    (∀ k, (hev_socks5_worker_new fd alloc t1 t2 t3).1 = some k → k.event_fd = -1) ∧
    (∀ tw te ts, hev_socks5_worker_new fd true (some tw) (some te) (some ts) =
      (some { fd := fd, event_fd := -1, quit := 0, task_worker := tw, task_event := te,
              task_session_manager := ts, session_list := none }, [])) ∧
    ((hev_socks5_worker_new fd alloc t1 t2 t3).1.isSome = true ↔
      alloc = true ∧ t1.isSome = true ∧ t2.isSome = true ∧ t3.isSome = true) ∧
    (∀ k m, (hev_socks5_worker_new fd alloc t1 t2 t3).1 = some k →
      hev_socks5_worker_stop { self := k, mem := m } r = ({ self := k, mem := m }, [])) ∧
    (session_manager_insert_session w s).self.event_fd = w.self.event_fd ∧
    (session_close_handler w s).self.event_fd = w.self.event_fd ∧
    (hev_socks5_worker_stop w r).1.self.event_fd = w.self.event_fd ∧
    ((∀ f ∈ it.yields, Keeps (fun k => k.event_fd) f) →
      (worker_iteration w it).1.self.event_fd = w.self.event_fd) ∧
    (∀ w2 ticks st2, (∀ f ∈ sleeps, Keeps (fun k => k.event_fd) f) →
      hev_socks5_session_manager_task_entry fuel w sleeps = some (w2, ticks, st2) →
      w2.self.event_fd = w.self.event_fd) ∧
    hev_socks5_event_task_entry fuel w none yields last =
      some ({ w with self := { w.self with event_fd := -1 } },
        [Event.log Msg.create_eventfd_failed], Status.returned) ∧
    (∀ efd w' ev st, (∀ f ∈ yields, Keeps (fun k => k.event_fd) f) →
      hev_socks5_event_task_entry fuel w (some efd) yields last = some (w', ev, st) →
      w'.self.event_fd = (efd : Int) ∧ w'.self.event_fd ≠ -1 ∧
      (st = Status.returned →
        ev.getLast? = some (Event.close (efd : Int)) ∧
        (hev_socks5_worker_stop w' r).2.head? = some (Event.eventfd_write (efd : Int) 1))) := by
  have hstop : ∀ e ∈ (hev_socks5_worker_stop w r).2,
      (e = Event.eventfd_write w.self.event_fd 1 ∧ w.self.event_fd ≠ -1) ∨
      e = Event.log Msg.write_stop_event_failed := by
    intro e he
    apply (stop_many_spec [r] w).2 e
    simpa [stop_many] using he
  have hnew : ∀ k, (hev_socks5_worker_new fd alloc t1 t2 t3).1 = some k → k.event_fd = -1 := by
    intro k hk
    unfold hev_socks5_worker_new at hk
    cases alloc <;> cases t1 <;> cases t2 <;> cases t3 <;> simp at hk
    rw [← hk]
  refine ⟨?_, ?_, ?_, hnew, fun _ _ _ => rfl, ?_, ?_, rfl, ?_, ?_, ?_, ?_, ?_, ?_⟩
  · constructor
    · rintro ⟨d, v, hm⟩
      rcases hstop _ hm with ⟨_, h2⟩ | h1
      · exact h2
      · exact Event.noConfusion h1
    · intro hne
      refine ⟨w.self.event_fd, 1, ?_⟩
      unfold hev_socks5_worker_stop
      rw [if_neg hne]
      split_ifs <;> simp
  · intro d v hm
    rcases hstop _ hm with ⟨h1, _⟩ | h1
    · simp only [Event.eventfd_write.injEq] at h1
      exact h1
    · exact Event.noConfusion h1
  · intro h
    simp [hev_socks5_worker_stop, h]
  · unfold hev_socks5_worker_new
    cases alloc <;> cases t1 <;> cases t2 <;> cases t3 <;> simp
  · intro k m hk
    have := hnew k hk
    simp [hev_socks5_worker_stop, this]
  · show (session_manager_remove_session w s).self.event_fd = w.self.event_fd
    rw [remove_self]
    split_ifs <;> rfl
  · have h : (hev_socks5_worker_stop w r).1 = w := (stop_many_spec [r] w).1
    rw [h]
  · intro hk
    exact iteration_keeps (fun k => k.event_fd) (fun _ _ => rfl) w it hk
  · intro w2 ticks st2 hk h
    exact reaper_keeps (fun k => k.event_fd) fuel sleeps w w2 ticks st2 hk h
  · simp [hev_socks5_event_task_entry, eventfd_int]
  · intro efd w' ev st hk h
    have hne : (efd : Int) ≠ -1 := by omega
    have hkeep := resume_all_keeps (fun k => k.event_fd) yields
      { w with self := { w.self with event_fd := (efd : Int) } } hk
    simp only at hkeep
    rcases event_entry_cases fuel w w' (some efd) yields last ev st h with
      ⟨h1, _⟩ | ⟨e2, h1, _, h2, _, h4⟩ | ⟨e2, m, wakes, h1, _, _, h2, _, h3⟩
    · cases h1
    · cases h1
      have hfd : w'.self.event_fd = (efd : Int) := by rw [h2, hkeep]
      refine ⟨hfd, by rw [hfd]; exact hne, ?_⟩
      intro hst
      rw [h4] at hst
      cases hst
    · cases h1
      have hfd : w'.self.event_fd = (efd : Int) := by rw [h2]; exact hkeep
      refine ⟨hfd, by rw [hfd]; exact hne, ?_⟩
      intro _
      constructor
      · rw [h3, hkeep]
        rw [← List.cons_append, List.getLast?_concat]
      · unfold hev_socks5_worker_stop
        rw [hfd]
        simp only [hne, if_false]
        split_ifs <;> rfl

theorem stop_guard_event_fd_witness :
    hev_socks5_worker_new 3 true (some 1) (some 2) (some 4) = (some worker0, []) ∧
    hev_socks5_worker_stop world0 0 = (world0, []) ∧
    ∃ w' ev, hev_socks5_event_task_entry 3 world3 (some 9) [] (some ReadRet.ok) =
        some (w', ev, Status.returned) ∧
      w'.self.event_fd = 9 ∧ ev.getLast? = some (Event.close 9) ∧
      (hev_socks5_worker_stop w' 0).2.head? = some (Event.eventfd_write 9 1) :=
  ⟨(stop_guard_event_fd 3 world0 0 0 iter_ok [] [] none 3 true (some 1) (some 2)
      (some 4)).2.2.2.2.1 1 2 4,
    (stop_guard_event_fd 3 world0 0 0 iter_ok [] [] none 3 true (some 1) (some 2)
      (some 4)).2.2.2.2.2.2.1 worker0 mem0 rfl,
    _, _, rfl,
    ((stop_guard_event_fd 3 world3 0 0 iter_ok [] [] (some ReadRet.ok) 3 true (some 1)
      (some 2) (some 4)).2.2.2.2.2.2.2.2.2.2.2.2.2 9 _ _ Status.returned
      (fun f hf => by simp at hf) rfl).1,
    (((stop_guard_event_fd 3 world3 0 0 iter_ok [] [] (some ReadRet.ok) 3 true (some 1)
      (some 2) (some 4)).2.2.2.2.2.2.2.2.2.2.2.2.2 9 _ _ Status.returned
      (fun f hf => by simp at hf) rfl).2.2 rfl).1,
    (((stop_guard_event_fd 3 world3 0 0 iter_ok [] [] (some ReadRet.ok) 3 true (some 1)
      (some 2) (some 4)).2.2.2.2.2.2.2.2.2.2.2.2.2 9 _ _ Status.returned
      (fun f hf => by simp at hf) rfl).2.2 rfl).2⟩

end HevSocks5
